import Mathlib

/-!
Verification of the reconciliation engine of `music-transcode.py`.

Strings are modelled as `List Char` (Python `str.split`, `join`, `replace`,
`startswith`, `endswith` and `in` become list operations).  Filesystem and
tag-library effects are modelled as explicit oracles passed as parameters.
-/

namespace MusicTranscode

abbrev Str := List Char

/-- Python substring test `pat in s`. -/
def containsSub (pat : Str) : Str → Bool
  | [] => pat.isEmpty
  | c :: rest => pat.isPrefixOf (c :: rest) || containsSub pat rest

/-- Python `s.replace(a, b)` for single characters `a`, `b`. -/
def pyReplaceChar (a b : Char) (l : Str) : Str :=
  l.map (fun c => if c = a then b else c)

/-- Python `os.path.basename` for the paths used here: the part after the last slash. -/
def basename (p : Str) : Str := (p.splitOn '/').getLastD []

/-- The recognized audio extension set from the source (`extensions`). -/
def extensions : List Str := [['f','l','a','c'], ['m','p','3'], ['o','g','g'], ['m','4','a']]

/-- The extra sidecar allow-list from the source (`extra`). -/
def extra : List Str :=
  [['c','o','v','e','r','.','j','p','g'],
   ['p','l','a','y','l','i','s','t','-','c','h','r','i','s','t','m','a','s','.','j','p','g']]

/-- The file filter of the tree scanner (`filter_file` in the source):
`name.split(".")[-1] in extensions` or, unless `no_extra`, `basename in extra`. -/
def filter_file (name : Str) (no_extra : Bool) : Bool :=
  let nm := basename name
  ((nm.splitOn '.').getLastD []) ∈ extensions || (!no_extra && nm ∈ extra)

/-- The extension of a file name in the usual sense: the part after the last
dot, defined only when the name actually contains a dot.  This is the notion
the specification's words use; the source instead takes `split(".")[-1]`. -/
def extOf (nm : Str) : Option Str :=
  if ('.' : Char) ∈ nm then some ((nm.splitOn '.').getLastD []) else none

/-- The file-filter acceptance rule as the claim states it: accepted iff the
extension (in the `extOf` sense) is recognized, or the extras rule applies. -/
def filterFileSpec (name : Str) (no_extra : Bool) : Bool :=
  (match extOf (basename name) with
   | some e => e ∈ extensions
   | none => false) || (!no_extra && basename name ∈ extra)

/-- The file-filter acceptance rule as amended: a name without any dot is
tested whole against the extension set (Python `split(".")[-1]` of a dotless
name is the name itself). -/
def filterFileSpecAmended (name : Str) (no_extra : Bool) : Bool :=
  (match extOf (basename name) with
   | some e => e ∈ extensions
   | none => basename name ∈ extensions) || (!no_extra && basename name ∈ extra)

lemma splitOn_eq_single {c : Char} {l : Str} (h : c ∉ l) : l.splitOn c = [l] := by
  have hall : ∀ x ∈ l, ¬((x == c) = true) := by
    intro x hx hb
    exact h ((beq_iff_eq (a := x) (b := c)).mp hb ▸ hx)
  simpa [List.splitOn] using List.splitOnP_eq_single _ _ hall

/-- C7 (counterexample): the source file named just `flac` (no extension at
all, not in the extras list) is accepted by `filter_file`, while the claimed
acceptance rule rejects it. -/
theorem filter_file_c7_counterexample :
    filter_file ['f','l','a','c'] true = true ∧
    filterFileSpec ['f','l','a','c'] true = false := by
  constructor <;> decide

/-- C7 (amended): `filter_file` accepts a name iff its extension (the part
after the last dot) is a recognized audio extension, or — when the name has no
dot at all — the whole basename is itself a member of the extension set, or the
extras flag is unset and the basename is in the extras allow-list. -/
theorem filter_file_c7_amended (name : Str) (no_extra : Bool) :
    filter_file name no_extra = filterFileSpecAmended name no_extra := by
  unfold filter_file filterFileSpecAmended extOf
  by_cases h : ('.' : Char) ∈ basename name
  · simp [h]
  · simp [h, splitOn_eq_single h]

/-! ### Coarse timestamp rounding (`round_mtime`) -/

/-- Python `st_mtime % 2` for the float modification time, modelled on ℚ
(`x % y = x - y*floor(x/y)` for floats in Python). -/
def pymod2 (t : ℚ) : ℚ := t - 2 * ⌊t / 2⌋

/-- The new modification time computed by `round_mtime` in the source:
unchanged when `st_mtime % 2 == 0`, otherwise `(math.ceil(st_mtime) + 1) // 2 * 2`
(Python `//` on integers is floor division, `Int.fdiv`).  The `os.lstat` /
`os.utime` calls around this arithmetic are I/O and are not modelled. -/
def round_mtime_calc (t : ℚ) : ℚ :=
  if pymod2 t ≠ 0 then (((⌈t⌉ + 1).fdiv 2 * 2 : ℤ) : ℚ) else t

/-- C8 (counterexample): the modification time 4.5 has an even second
component (its integral part is 4), yet `round_mtime` changes it (to 6),
because the float remainder `4.5 % 2 = 0.5` is nonzero. -/
theorem round_mtime_c8_counterexample :
    ⌊(9/2 : ℚ)⌋ % 2 = 0 ∧ round_mtime_calc (9/2 : ℚ) ≠ (9/2 : ℚ) := by
  have h1 : ⌊(9/2 : ℚ)⌋ = 4 := by norm_num
  have h2 : ⌊(9/2 : ℚ)/2⌋ = 2 := by norm_num
  have h3 : ⌈(9/2 : ℚ)⌉ = 5 := by
    rw [Int.ceil_eq_iff]
    norm_num
  have hcond : pymod2 (9/2 : ℚ) ≠ 0 := by
    rw [pymod2, h2]
    norm_num
  refine ⟨by rw [h1]; decide, ?_⟩
  rw [round_mtime_calc, if_pos hcond, h3]
  rw [show ((5:ℤ) + 1).fdiv 2 * 2 = 6 from by decide]
  norm_num

lemma pymod2_eq_zero_iff (t : ℚ) : pymod2 t = 0 ↔ ∃ m : ℤ, t = 2 * m := by
  constructor
  · intro h
    exact ⟨⌊t / 2⌋, by rw [pymod2] at h; linarith⟩
  · rintro ⟨m, rfl⟩
    rw [pymod2]
    rw [show ((2:ℚ) * m) / 2 = (m : ℚ) from by ring]
    rw [Int.floor_intCast]
    ring

/-- C8 (amended): `round_mtime` leaves a modification time that is an exact
even whole number of seconds unchanged; every other modification time (odd
whole seconds, or any fractional part) is replaced by the smallest even
integer strictly greater than it — rounding up, never down. -/
theorem round_mtime_c8_amended (t : ℚ) :
    (pymod2 t = 0 → round_mtime_calc t = t) ∧
    (pymod2 t ≠ 0 → ∃ k : ℤ, round_mtime_calc t = 2 * k ∧ t < 2 * k ∧
      ∀ j : ℤ, t ≤ 2 * j → k ≤ j) := by
  constructor
  · intro h
    rw [round_mtime_calc, if_neg]
    simp [h]
  · intro h
    rw [round_mtime_calc, if_pos h]
    rcases Int.even_or_odd ⌈t⌉ with ⟨m, hm⟩ | ⟨m, hm⟩
    · -- ceiling is even: the code returns the ceiling itself
      have hfd : ((m + m : ℤ) + 1).fdiv 2 * 2 = 2 * m := by
        rw [Int.fdiv_eq_ediv _ (by decide : (0:ℤ) ≤ 2)]
        omega
      refine ⟨m, ?_, ?_, ?_⟩
      · rw [hm, hfd]
        push_cast
        ring
      · have hle : t ≤ (⌈t⌉ : ℚ) := Int.le_ceil t
        have hne : t ≠ 2 * (m : ℚ) := by
          intro he
          exact h ((pymod2_eq_zero_iff t).2 ⟨m, he⟩)
        rw [hm] at hle
        push_cast at hle
        have hle2 : t ≤ 2 * (m : ℚ) := by linarith
        exact lt_of_le_of_ne hle2 hne
      · intro j hj
        have hc : ⌈t⌉ ≤ 2 * j := Int.ceil_le.2 (by push_cast; exact hj)
        omega
    · -- ceiling is odd: the code returns ceiling + 1
      have hfd : ((2 * m + 1 : ℤ) + 1).fdiv 2 * 2 = 2 * (m + 1) := by
        rw [Int.fdiv_eq_ediv _ (by decide : (0:ℤ) ≤ 2)]
        omega
      refine ⟨m + 1, ?_, ?_, ?_⟩
      · rw [hm, hfd]
        push_cast
        ring
      · have hle : t ≤ (⌈t⌉ : ℚ) := Int.le_ceil t
        rw [hm] at hle
        push_cast at hle ⊢
        linarith
      · intro j hj
        have hc : ⌈t⌉ ≤ 2 * j := Int.ceil_le.2 (by push_cast; exact hj)
        omega

/-- C8 (witness for the amended theorem): at `t = 4` the time is unchanged,
and at `t = 4.5` the result is the even integer 6, strictly above 4.5 and
minimal among even integers at or above it. -/
theorem round_mtime_c8_witness :
    round_mtime_calc (4 : ℚ) = 4 ∧
    (∃ k : ℤ, round_mtime_calc (9/2 : ℚ) = 2 * k ∧ (9/2 : ℚ) < 2 * k ∧
      ∀ j : ℤ, (9/2 : ℚ) ≤ 2 * j → k ≤ j) := by
  constructor
  · exact (round_mtime_c8_amended 4).1 (by
      rw [(pymod2_eq_zero_iff 4).2 ⟨2, by norm_num⟩])
  · exact (round_mtime_c8_amended (9/2)).2 (by
      rw [pymod2, show ⌊(9/2 : ℚ)/2⌋ = 2 from by norm_num]
      norm_num)

/-! ### Android-safe renaming (`android_safe_chars_only`) -/

/-- The character class of `re_unsafe_android` in the source. -/
def reservedAndroid (c : Char) : Bool :=
  c ∈ ['"', '*', ':', '<', '>', '?', '\\', '|']

/-- The `android_safe_chars_only` normalizer from the source: assert the text
is nonempty (modelled as `Option`), replace `:` and `?` by look-alike
characters, then replace every remaining reserved character by `_`. -/
def android_safe_chars_only (text : Str) : Option Str :=
  if text = [] then none
  else
    let t1 := pyReplaceChar ':' '∶' text
    let t2 := pyReplaceChar '?' '⸮' t1
    some (t2.map (fun c => if reservedAndroid c then '_' else c))

/-- The per-character action of `android_safe_chars_only`. -/
def androidChar (c : Char) : Char :=
  let c1 := if c = ':' then '∶' else c
  let c2 := if c1 = '?' then '⸮' else c1
  if reservedAndroid c2 then '_' else c2

lemma android_eq_map (text : Str) :
    android_safe_chars_only text =
      if text = [] then none else some (text.map androidChar) := by
  rw [android_safe_chars_only]
  split
  · rfl
  · simp only [pyReplaceChar, List.map_map, Option.some.injEq]
    apply List.map_congr_left
    intro c _
    rfl

lemma reservedAndroid_androidChar (c : Char) : reservedAndroid (androidChar c) = false := by
  rw [androidChar]
  by_cases h2 : reservedAndroid (if (if c = ':' then '∶' else c) = '?' then '⸮' else (if c = ':' then '∶' else c))
  · simp only [h2, if_true]
    decide
  · simp only [h2, if_false]
    exact eq_false_of_ne_true h2

lemma map_char_idem (f : Char → Char) (hf : ∀ c, f (f c) = f c) (l : Str) :
    (l.map f).map f = l.map f := by
  induction l with
  | nil => rfl
  | cons c rest ih => simp only [List.map_cons, hf c, ih]

lemma androidChar_idem (c : Char) : androidChar (androidChar c) = androidChar c := by
  have hr : reservedAndroid (androidChar c) = false := reservedAndroid_androidChar c
  have h1 : androidChar c ≠ ':' := by
    intro he
    rw [he] at hr
    exact absurd hr (by decide)
  have h2 : androidChar c ≠ '?' := by
    intro he
    rw [he] at hr
    exact absurd hr (by decide)
  conv_lhs => rw [androidChar]
  simp [h1, h2, hr]

/-- C10: the AndroidSafe normalizer is idempotent — whenever it succeeds
(nonempty input), applying it to its own output returns that output
unchanged, since the output contains no reserved character. -/
theorem android_safe_chars_only_idempotent (text out : Str)
    (h : android_safe_chars_only text = some out) :
    android_safe_chars_only out = some out := by
  rw [android_eq_map] at h
  by_cases ht : text = []
  · rw [if_pos ht] at h
    exact absurd h (by simp)
  · rw [if_neg ht] at h
    have hout : out = text.map androidChar := ((Option.some.injEq _ _).mp h).symm
    have hne : out ≠ [] := by
      rw [hout]
      simpa using ht
    rw [android_eq_map, if_neg hne, hout]
    exact congrArg some (map_char_idem androidChar androidChar_idem text)

/-- C10 (witness): on the concrete name `a:b` the normalizer succeeds and is
idempotent. -/
theorem android_safe_chars_only_idempotent_witness :
    android_safe_chars_only ['a', '∶', 'b'] = some ['a', '∶', 'b'] :=
  android_safe_chars_only_idempotent ['a', ':', 'b'] ['a', '∶', 'b'] (by decide)

/-! ### Rewrite-policy normalization (`fat_safe`, `safe_chars_only`) and the
safe-name predicate (`safe_filename`) -/

def safe_filename (name : Str) : Bool :=
  if ['/'].isPrefixOf name || ['.','/'].isPrefixOf name || ['.','.','/'].isPrefixOf name then false
  else if ['/'].isSuffixOf name || ['/','.'].isSuffixOf name || ['/','.','.'].isSuffixOf name then false
  else if containsSub ['/','.','/'] name || containsSub ['/','.','.','/'] name then false
  else true

def stripTrailingDots (l : Str) : Str := (l.reverse.dropWhile (fun c => c = '.')).reverse

def fat_safe (text : Str) : Option Str :=
  if text = [] then none
  else
    let t := stripTrailingDots text
    if t = [] then none else some t

def squote : Char := Char.ofNat 39

def allowedD (c : Char) : Bool :=
  c.isAlpha || c.isDigit || c ∈ [' ', '.', ',', '&', squote, '(', ')', '_', '/', '-']

def allowedF (c : Char) : Bool :=
  c.isAlpha || c.isDigit || c ∈ [' ', '.', ',', '&', squote, '(', ')', '_', '-']

def pinkReplace : Str → Str
  | 'P' :: '!' :: 'n' :: 'k' :: rest => 'P' :: 'i' :: 'n' :: 'k' :: pinkReplace rest
  | c :: rest => c :: pinkReplace rest
  | [] => []

def subUnsafeF (l : Str) : Str := l.map (fun c => if allowedF c then c else '_')

def subUnsafeD (l : Str) : Str := l.map (fun c => if allowedD c then c else '_')

def joinSlash (segs : List Str) : Str := [('/' : Char)].intercalate segs


-- ## infrastructure lemmas

lemma containsSub_iff (pat l : Str) : containsSub pat l = true ↔ pat <:+: l := by
  induction l with
  | nil =>
    simp only [containsSub, List.isEmpty_iff]
    constructor
    · rintro rfl
      exact List.infix_refl []
    · intro h
      exact List.eq_nil_of_infix_nil h
  | cons c rest ih =>
    simp only [containsSub, Bool.or_eq_true, List.isPrefixOf_iff_prefix, ih,
      List.infix_cons_iff]

lemma goal_safe_of_checks (name : Str)
    (h1 : ¬ ['/'] <+: name) (h2 : ¬ ['.','/'] <+: name) (h3 : ¬ ['.','.','/'] <+: name)
    (h4 : ¬ ['/'] <:+ name) (h5 : ¬ ['/','.'] <:+ name) (h6 : ¬ ['/','.','.'] <:+ name)
    (h7 : ¬ ['/','.','/'] <:+: name) (h8 : ¬ ['/','.','.','/'] <:+: name) :
    safe_filename name = true := by
  rw [safe_filename]
  rw [if_neg, if_neg, if_neg]
  · simp only [Bool.or_eq_true, containsSub_iff]
    rintro (h | h)
    · exact h7 h
    · exact h8 h
  · simp only [Bool.or_eq_true, List.isSuffixOf_iff_suffix]
    rintro ((h | h) | h)
    · exact h4 h
    · exact h5 h
    · exact h6 h
  · simp only [Bool.or_eq_true, List.isPrefixOf_iff_prefix]
    rintro ((h | h) | h)
    · exact h1 h
    · exact h2 h
    · exact h3 h

lemma noslash_safe (name : Str) (h : ('/' : Char) ∉ name) : safe_filename name = true := by
  apply goal_safe_of_checks
  · intro hp
    exact h (hp.subset (by decide))
  · intro hp
    exact h (hp.subset (by decide))
  · intro hp
    exact h (hp.subset (by decide))
  · intro hp
    exact h (hp.subset (by decide))
  · intro hp
    exact h (hp.subset (by decide))
  · intro hp
    exact h (hp.subset (by decide))
  · intro hp
    exact h (hp.subset (by decide))
  · intro hp
    exact h (hp.subset (by decide))

-- prefixes of the bad patterns
lemma prefix_of_badpat (w pat : Str)
    (hpat : pat = ['/'] ∨ pat = ['.','/'] ∨ pat = ['.','.','/'])
    (hw : w <+: pat) :
    w = [] ∨ ('/' : Char) ∈ w ∨ w = ['.'] ∨ w = ['.','.'] := by
  rcases hpat with rfl | rfl | rfl
  · rcases List.prefix_cons_iff.1 hw with rfl | ⟨t, rfl, ht⟩
    · exact Or.inl rfl
    · exact Or.inr (Or.inl (by simp))
  · rcases List.prefix_cons_iff.1 hw with rfl | ⟨t, rfl, ht⟩
    · exact Or.inl rfl
    · rcases List.prefix_cons_iff.1 ht with rfl | ⟨t2, rfl, ht2⟩
      · exact Or.inr (Or.inr (Or.inl rfl))
      · exact Or.inr (Or.inl (by simp))
  · rcases List.prefix_cons_iff.1 hw with rfl | ⟨t, rfl, ht⟩
    · exact Or.inl rfl
    · rcases List.prefix_cons_iff.1 ht with rfl | ⟨t2, rfl, ht2⟩
      · exact Or.inr (Or.inr (Or.inl rfl))
      · rcases List.prefix_cons_iff.1 ht2 with rfl | ⟨t3, rfl, ht3⟩
        · exact Or.inr (Or.inr (Or.inr rfl))
        · exact Or.inr (Or.inl (by simp))

def goodSeg (s : Str) : Prop :=
  s ≠ [] ∧ ('/' : Char) ∉ s ∧ s.getLast? ≠ some '.'

lemma goodSeg_not_dot {s : Str} (hs : goodSeg s) : s ≠ ['.'] ∧ s ≠ ['.','.'] := by
  obtain ⟨-, -, h3⟩ := hs
  constructor
  · rintro rfl
    exact h3 rfl
  · rintro rfl
    exact h3 rfl

-- u nonempty, slash-free, not "." or "..", never starts with a bad pattern
lemma no_bad_prefix_of_append (u t pat : Str)
    (hpat : pat = ['/'] ∨ pat = ['.','/'] ∨ pat = ['.','.','/'])
    (hu0 : u ≠ []) (hus : ('/' : Char) ∉ u) (hu1 : u ≠ ['.']) (hu2 : u ≠ ['.','.'])
    (h : pat <+: u ++ t) : False := by
  have hslash_pat : ('/' : Char) ∈ pat := by
    rcases hpat with rfl | rfl | rfl <;> simp
  rcases List.prefix_or_prefix_of_prefix h (List.prefix_append u t) with hp | hp
  · exact hus (hp.subset hslash_pat)
  · rcases prefix_of_badpat u pat hpat hp with rfl | hin | rfl | rfl
    · exact hu0 rfl
    · exact hus hin
    · exact hu1 rfl
    · exact hu2 rfl

lemma joinSlash_cons2 (a b : Str) (t : List Str) :
    joinSlash (a :: b :: t) = a ++ '/' :: joinSlash (b :: t) := by
  simp [joinSlash, List.intercalate, List.intersperse_cons_cons]

lemma joinSlash_single (a : Str) : joinSlash [a] = a := by
  simp [joinSlash, List.intercalate]

-- the join of good segments never starts with a bad pattern
lemma join_no_bad_prefix (segs : List Str) (hne : segs ≠ [])
    (hgood : ∀ s ∈ segs, goodSeg s) (pat : Str)
    (hpat : pat = ['/'] ∨ pat = ['.','/'] ∨ pat = ['.','.','/']) :
    ¬ pat <+: joinSlash segs := by
  intro h
  match segs, hne with
  | [u], _ =>
    rw [joinSlash_single] at h
    have hg := hgood u (by simp)
    have hd := goodSeg_not_dot hg
    exact no_bad_prefix_of_append u [] pat hpat hg.1 hg.2.1 hd.1 hd.2
      (by simpa using h)
  | u :: v :: rest, _ =>
    rw [joinSlash_cons2] at h
    have hg := hgood u (by simp)
    have hd := goodSeg_not_dot hg
    exact no_bad_prefix_of_append u _ pat hpat hg.1 hg.2.1 hd.1 hd.2 h

-- decompose the join from the right
lemma joinSlash_last (segs : List Str) (hne : segs ≠ []) :
    ∃ t u, u ∈ segs ∧ segs.getLast? = some u ∧ joinSlash segs = t ++ u := by
  induction segs with
  | nil => exact absurd rfl hne
  | cons a rest ih =>
    cases rest with
    | nil =>
      exact ⟨[], a, by simp, by simp, (joinSlash_single a).symm ▸ by simp [joinSlash_single]⟩
    | cons b t2 =>
      obtain ⟨t, u, hu, hlast, hj⟩ := ih (by simp)
      refine ⟨a ++ '/' :: t, u, by simp [hu], by simpa using hlast, ?_⟩
      rw [joinSlash_cons2, hj]
      simp

lemma suffix_of_badpat (w pat : Str)
    (hpat : pat = ['/'] ∨ pat = ['/','.'] ∨ pat = ['/','.','.'])
    (hw : w <:+ pat) :
    w = [] ∨ ('/' : Char) ∈ w ∨ w = ['.'] ∨ w = ['.','.'] := by
  have hw2 : w.reverse <+: pat.reverse := List.reverse_prefix.2 hw
  have hrev : pat.reverse = ['/'] ∨ pat.reverse = ['.','/'] ∨ pat.reverse = ['.','.','/'] := by
    rcases hpat with rfl | rfl | rfl
    · exact Or.inl rfl
    · exact Or.inr (Or.inl rfl)
    · exact Or.inr (Or.inr rfl)
  rcases prefix_of_badpat w.reverse pat.reverse hrev hw2 with h0 | hin | h1 | h2
  · left
    simpa using congrArg List.reverse h0
  · right
    left
    simpa using hin
  · right
    right
    left
    have := congrArg List.reverse h1
    simpa using this
  · right
    right
    right
    have := congrArg List.reverse h2
    simpa using this

lemma join_no_bad_suffix (segs : List Str) (hne : segs ≠ [])
    (hgood : ∀ s ∈ segs, goodSeg s) (pat : Str)
    (hpat : pat = ['/'] ∨ pat = ['/','.'] ∨ pat = ['/','.','.']) :
    ¬ pat <:+ joinSlash segs := by
  intro h
  obtain ⟨t, u, humem, -, hj⟩ := joinSlash_last segs hne
  rw [hj] at h
  have hg := hgood u humem
  have hd := goodSeg_not_dot hg
  have hslash_pat : ('/' : Char) ∈ pat := by
    rcases hpat with rfl | rfl | rfl <;> simp
  rcases List.suffix_or_suffix_of_suffix h (List.suffix_append t u) with hs | hs
  · exact hg.2.1 (hs.subset hslash_pat)
  · rcases suffix_of_badpat u pat hpat hs with rfl | hin | rfl | rfl
    · exact hg.1 rfl
    · exact hg.2.1 hin
    · exact hg.2.2 rfl
    · exact hg.2.2 rfl

lemma infix_slide (s : Str) (hs : ('/' : Char) ∉ s) (pat j : Str)
    (hh : pat.head? = some '/') (h : pat <:+: s ++ j) : pat <:+: j := by
  induction s with
  | nil => simpa using h
  | cons c s2 ih =>
    rw [List.cons_append, List.infix_cons_iff] at h
    rcases h with hp | hi
    · exfalso
      cases pat with
      | nil => simp at hh
      | cons p0 prest =>
        have hp0 : p0 = '/' := by simpa using hh
        rcases List.prefix_cons_iff.1 hp with he | ⟨t, he, -⟩
        · simp at he
        · have : p0 = c := by
            have := congrArg (fun l => l.head?) he
            simpa using this
          apply hs
          rw [← this, hp0]
          simp
    · exact ih (fun hm => hs (by simp [hm])) hi

lemma join_no_bad_infix (segs : List Str)
    (hgood : ∀ s ∈ segs, goodSeg s) (pat : Str)
    (hpat : pat = ['/','.','/'] ∨ pat = ['/','.','.','/']) :
    ¬ pat <:+: joinSlash segs := by
  induction segs with
  | nil =>
    intro h
    have : pat = [] := List.eq_nil_of_infix_nil (by simpa [joinSlash, List.intercalate] using h)
    rcases hpat with rfl | rfl <;> simp at this
  | cons u rest ih =>
    intro h
    cases rest with
    | nil =>
      rw [joinSlash_single] at h
      have hg := hgood u (by simp)
      have hslash_pat : ('/' : Char) ∈ pat := by
        rcases hpat with rfl | rfl <;> simp
      exact hg.2.1 (h.subset hslash_pat)
    | cons v t2 =>
      rw [joinSlash_cons2] at h
      have hg := hgood u (by simp)
      have hh : pat.head? = some '/' := by
        rcases hpat with rfl | rfl <;> rfl
      have h2 : pat <:+: '/' :: joinSlash (v :: t2) := infix_slide u hg.2.1 pat _ hh h
      rw [List.infix_cons_iff] at h2
      rcases h2 with hp | hi
      · -- pat is a prefix of '/' :: join: so its tail pattern is a prefix of the join
        have hbad : (pat.drop 1) <+: joinSlash (v :: t2) := by
          rcases List.prefix_cons_iff.1 hp with he | ⟨t, he, ht⟩
          · exfalso
            rcases hpat with rfl | rfl <;> simp at he
          · have : pat.drop 1 = t := by rw [he]; rfl
            rw [this]
            exact ht
        have hpat2 : pat.drop 1 = ['.','/'] ∨ pat.drop 1 = ['.','.','/'] := by
          rcases hpat with rfl | rfl
          · exact Or.inl rfl
          · exact Or.inr rfl
        exact join_no_bad_prefix (v :: t2) (by simp)
          (fun s hsm => hgood s (by simp [hsm])) (pat.drop 1)
          (Or.inr hpat2) hbad
      · exact ih (fun s hsm => hgood s (by simp [hsm])) hi

-- the main join-safety lemma
lemma joinSlash_safe (segs : List Str) (hne : segs ≠ [])
    (hgood : ∀ s ∈ segs, goodSeg s) :
    safe_filename (joinSlash segs) = true := by
  apply goal_safe_of_checks
  · exact join_no_bad_prefix segs hne hgood _ (Or.inl rfl)
  · exact join_no_bad_prefix segs hne hgood _ (Or.inr (Or.inl rfl))
  · exact join_no_bad_prefix segs hne hgood _ (Or.inr (Or.inr rfl))
  · exact join_no_bad_suffix segs hne hgood _ (Or.inl rfl)
  · exact join_no_bad_suffix segs hne hgood _ (Or.inr (Or.inl rfl))
  · exact join_no_bad_suffix segs hne hgood _ (Or.inr (Or.inr rfl))
  · exact join_no_bad_infix segs hgood _ (Or.inl rfl)
  · exact join_no_bad_infix segs hgood _ (Or.inr rfl)


-- part B: fat_safe and the main theorem

def mapOpt (f : Str → Option Str) : List Str → Option (List Str)
  | [] => some []
  | x :: rest =>
    match f x, mapOpt f rest with
    | some y, some ys => some (y :: ys)
    | _, _ => none

lemma fat_safe_good (v t : Str) (h : fat_safe v = some t) :
    t ≠ [] ∧ t.getLast? ≠ some '.' ∧ ∀ c ∈ t, c ∈ v := by
  rw [fat_safe] at h
  by_cases hv : v = []
  · rw [if_pos hv] at h
    cases h
  · rw [if_neg hv] at h
    simp only at h
    by_cases hs : stripTrailingDots v = []
    · rw [if_pos hs] at h
      cases h
    · rw [if_neg hs] at h
      have ht : t = stripTrailingDots v := (Option.some.injEq _ _).mp h.symm
      subst ht
      refine ⟨hs, ?_, ?_⟩
      · rw [stripTrailingDots, List.getLast?_eq_head?_reverse, List.reverse_reverse]
        intro hhead
        have hnd := List.head?_dropWhile_not (fun c => c = '.') v.reverse
        rw [hhead] at hnd
        simp at hnd
      · intro c hc
        rw [stripTrailingDots] at hc
        have hmem : c ∈ v.reverse :=
          (List.dropWhile_sublist _).subset (by simpa using hc)
        simpa using hmem

lemma pyReplaceChar_no_slash (w : Str) : ('/' : Char) ∉ pyReplaceChar '/' '_' w := by
  intro hm
  rw [pyReplaceChar] at hm
  obtain ⟨x, -, hx⟩ := List.mem_map.1 hm
  by_cases h : x = '/'
  · rw [if_pos h] at hx
    exact absurd hx (by decide)
  · rw [if_neg h] at hx
    exact h hx

lemma mapOpt_mem (f : Str → Option Str) (l ys : List Str) (h : mapOpt f l = some ys) :
    ∀ y ∈ ys, ∃ x, f x = some y := by
  induction l generalizing ys with
  | nil =>
    rw [mapOpt] at h
    obtain rfl : ([] : List Str) = ys := (Option.some.injEq _ _).mp h
    intro y hy
    simp at hy
  | cons a rest ih =>
    rw [mapOpt] at h
    cases hfa : f a with
    | none => rw [hfa] at h; simp at h
    | some y0 =>
      cases hrest : mapOpt f rest with
      | none => rw [hfa, hrest] at h; simp at h
      | some ys0 =>
        rw [hfa, hrest] at h
        simp only at h
        obtain rfl : y0 :: ys0 = ys := (Option.some.injEq _ _).mp h
        intro y hy
        rcases List.mem_cons.1 hy with rfl | hmem
        · exact ⟨a, hfa⟩
        · exact ih ys0 hrest y hmem

lemma mapOpt_ne_nil (f : Str → Option Str) (l ys : List Str)
    (hl : l ≠ []) (h : mapOpt f l = some ys) : ys ≠ [] := by
  cases l with
  | nil => exact absurd rfl hl
  | cons a rest =>
    rw [mapOpt] at h
    cases hfa : f a with
    | none => rw [hfa] at h; simp at h
    | some y0 =>
      cases hrest : mapOpt f rest with
      | none => rw [hfa, hrest] at h; simp at h
      | some ys0 =>
        rw [hfa, hrest] at h
        simp only at h
        obtain rfl : y0 :: ys0 = ys := (Option.some.injEq _ _).mp h
        simp

lemma splitOn_ne_nil (c : Char) (l : Str) : l.splitOn c ≠ [] :=
  List.splitOnP_ne_nil _ l

lemma subUnsafeD_char_eq (c d : Char)
    (h : (if allowedD c then c else '_') = d) (hd : d ≠ '_') : c = d := by
  by_cases ha : allowedD c = true
  · rw [if_pos ha] at h
    exact h
  · rw [if_neg ha] at h
    exact absurd h.symm hd

lemma subUnsafeD_no_slash_of (l : Str) (hl : ('/' : Char) ∉ l) :
    ('/' : Char) ∉ subUnsafeD l := by
  intro hm
  rw [subUnsafeD] at hm
  obtain ⟨x, hxm, hx⟩ := List.mem_map.1 hm
  have hxval : x = '/' := subUnsafeD_char_eq x '/' hx (by decide)
  exact hl (hxval ▸ hxm)

lemma subUnsafeF_no_slash (l : Str) : ('/' : Char) ∉ subUnsafeF l := by
  intro hm
  rw [subUnsafeF] at hm
  obtain ⟨x, -, hx⟩ := List.mem_map.1 hm
  by_cases ha : allowedF x = true
  · rw [if_pos ha] at hx
    rw [hx] at ha
    exact absurd ha (by decide)
  · rw [if_neg ha] at hx
    exact absurd hx (by decide)

lemma subUnsafeD_cons_slash (l : Str) : subUnsafeD ('/' :: l) = '/' :: subUnsafeD l := rfl

lemma subUnsafeD_join (segs : List Str) :
    subUnsafeD (joinSlash segs) = joinSlash (segs.map subUnsafeD) := by
  induction segs with
  | nil => rfl
  | cons a rest ih =>
    cases rest with
    | nil =>
      rw [List.map_cons, List.map_nil, joinSlash_single, joinSlash_single]
    | cons b t2 =>
      rw [joinSlash_cons2]
      have h1 : subUnsafeD (a ++ '/' :: joinSlash (b :: t2)) =
          subUnsafeD a ++ subUnsafeD ('/' :: joinSlash (b :: t2)) := List.map_append _ _ _
      rw [List.map_cons, h1, subUnsafeD_cons_slash, ih, List.map_cons, joinSlash_cons2]

lemma goodSeg_subUnsafeD (s : Str) (hg : goodSeg s) : goodSeg (subUnsafeD s) := by
  obtain ⟨h1, h2, h3⟩ := hg
  refine ⟨?_, subUnsafeD_no_slash_of s h2, ?_⟩
  · rw [subUnsafeD]
    simpa using h1
  · rw [subUnsafeD, List.getLast?_map]
    intro hbad
    cases hlast : s.getLast? with
    | none => rw [hlast] at hbad; simp at hbad
    | some c =>
      rw [hlast] at hbad
      have hc : c = '.' := subUnsafeD_char_eq c '.'
        ((Option.some.injEq _ _).mp hbad) (by decide)
      rw [hc] at hlast
      exact h3 hlast

def safe_chars_only (unidec : Str → Str) (text : Str) (file : Bool) : Option Str :=
  if text = [] then none
  else
    let t := pinkReplace text
    match mapOpt (fun x => fat_safe (pyReplaceChar '/' '_' (unidec x))) (t.splitOn '/') with
    | none => none
    | some segs =>
      let r := if file then subUnsafeF (joinSlash segs) else subUnsafeD (joinSlash segs)
      if r = [] then none else some r

/-- C9: every string on which the Rewrite normalizer `safe_chars_only` returns
normally (no assertion failure) satisfies the safe-name predicate
`safe_filename`: it does not start with `/`, `./` or `../`, does not end with
`/`, `/.` or `/..`, and contains no `/./` or `/../`, because every segment has
trailing periods stripped and is never empty. -/
theorem safe_chars_only_is_safe (unidec : Str → Str) (text : Str) (file : Bool) (out : Str)
    (h : safe_chars_only unidec text file = some out) :
    safe_filename out = true := by
  rw [safe_chars_only] at h
  by_cases ht : text = []
  · rw [if_pos ht] at h
    cases h
  · rw [if_neg ht] at h
    simp only at h
    cases hm : mapOpt (fun x => fat_safe (pyReplaceChar '/' '_' (unidec x)))
        ((pinkReplace text).splitOn '/') with
    | none =>
      rw [hm] at h
      cases h
    | some segs =>
      rw [hm] at h
      simp only at h
      have hgood : ∀ s ∈ segs, goodSeg s := by
        intro s hs
        obtain ⟨x, hx⟩ := mapOpt_mem _ _ _ hm s hs
        obtain ⟨g1, g2, g3⟩ := fat_safe_good _ _ hx
        exact ⟨g1, fun hc => pyReplaceChar_no_slash _ (g3 _ hc), g2⟩
      have hne : segs ≠ [] :=
        mapOpt_ne_nil _ _ _ (splitOn_ne_nil '/' (pinkReplace text)) hm
      cases file with
      | true =>
        have hsel : (if (true = true) then subUnsafeF (joinSlash segs)
            else subUnsafeD (joinSlash segs)) = subUnsafeF (joinSlash segs) := if_pos rfl
        rw [hsel] at h
        by_cases hr : subUnsafeF (joinSlash segs) = []
        · rw [if_pos hr] at h
          cases h
        · rw [if_neg hr] at h
          have hout : out = subUnsafeF (joinSlash segs) :=
            ((Option.some.injEq _ _).mp h).symm
          rw [hout]
          exact noslash_safe _ (subUnsafeF_no_slash _)
      | false =>
        have hsel : (if (false = true) then subUnsafeF (joinSlash segs)
            else subUnsafeD (joinSlash segs)) = subUnsafeD (joinSlash segs) :=
          if_neg (by decide)
        rw [hsel] at h
        by_cases hr : subUnsafeD (joinSlash segs) = []
        · rw [if_pos hr] at h
          cases h
        · rw [if_neg hr] at h
          have hout : out = subUnsafeD (joinSlash segs) :=
            ((Option.some.injEq _ _).mp h).symm
          rw [hout, subUnsafeD_join]
          apply joinSlash_safe
          · simpa using hne
          · intro s hs
            obtain ⟨s0, hs0m, hs0⟩ := List.mem_map.1 hs
            rw [← hs0]
            exact goodSeg_subUnsafeD s0 (hgood s0 hs0m)


/-- C9 (witness): a concrete successful run of the normalizer yields a safe name. -/
theorem safe_chars_only_is_safe_witness : safe_filename ['a', 'b'] = true :=
  safe_chars_only_is_safe id ['a', 'b'] true ['a', 'b'] (by decide)

/-! ### Tag mappings and `get_title` -/

abbrev Tags := List (Str × List Str)

/-- Python `dict` lookup on a tag mapping (mutagen keys are unique). -/
def lookupTag (tags : Tags) (k : Str) : Option (List Str) :=
  (tags.find? (fun p => p.1 == k)).map Prod.snd

def kDISCNUMBER : Str := ['D','I','S','C','N','U','M','B','E','R']
def kTRACKNUMBER : Str := ['T','R','A','C','K','N','U','M','B','E','R']
def kTITLE : Str := ['T','I','T','L','E']

/-- Decimal digit characters of a natural number (fuel-structured so it
computes by kernel reduction). -/
def natDigitsAux : Nat → Nat → Str
  | 0, _ => []
  | fuel+1, n =>
    if n < 10 then [Char.ofNat (48 + n)]
    else natDigitsAux fuel (n / 10) ++ [Char.ofNat (48 + n % 10)]

def natDigits (n : Nat) : Str := natDigitsAux (n + 1) n

def digitsVal (s : Str) : Nat := s.foldl (fun a c => a * 10 + (c.toNat - 48)) 0

/-- Python `int(s)` restricted to optionally-signed decimal numerals; other
strings raise `ValueError`, modelled as `none`. -/
def pyInt (s : Str) : Option Int :=
  match s with
  | '-' :: rest =>
    if !rest.isEmpty && rest.all Char.isDigit then some (-(digitsVal rest : Int)) else none
  | _ => if !s.isEmpty && s.all Char.isDigit then some ((digitsVal s : Int)) else none

/-- Python `f"{n:02d}"`: pad to width two with zeros (sign included). -/
def pad2 (n : Int) : Str :=
  if n < 0 then '-' :: natDigits n.natAbs
  else if n.natAbs < 10 then '0' :: natDigits n.natAbs
  else natDigits n.natAbs

/-- The part of a tag value before the first `/` (Python `.split("/")[0]`). -/
def firstPart (v : Str) : Str := ((v.splitOn '/').head?).getD []

/-- The tail of `get_title` after the numeric prefixes: append a space when a
prefix was produced, then the normalized TITLE tag with `/` replaced by `-`
(`KeyError` on a missing TITLE is `none`). -/
def titleTail (unidec : Str → Str) (tags : Tags) (pre : Str) : Option Str :=
  (lookupTag tags kTITLE).bind (fun t =>
    t.head?.bind (fun t0 =>
      (safe_chars_only unidec (pyReplaceChar '/' '-' t0) true).bind (fun title =>
        some ((if pre = [] then pre else pre ++ [' ']) ++ title))))

/-- The `get_title` function of the source over the flac file's tag mapping
(reading the file is I/O; `unidec` abstracts the `unidecode` library).
`KeyError`, `IndexError`, `ValueError` and assertion failures are `none`. -/
def get_title (unidec : Str → Str) (tags : Tags) : Option Str :=
  (((lookupTag tags kDISCNUMBER).getD [[]]).head?).bind (fun dv =>
  (((lookupTag tags kTRACKNUMBER).getD [[]]).head?).bind (fun tv =>
  (if firstPart dv = [] then some []
   else (pyInt (firstPart dv)).bind (fun n => some (pad2 n ++ ['.']))).bind (fun discs =>
  (if firstPart tv = [] then some []
   else (pyInt (firstPart tv)).bind (fun n => some (pad2 n))).bind (fun tracks =>
  titleTail unidec tags (discs ++ tracks)))))

/-- Disc/track prefix computation as the claim words it: a prefix is produced
whenever the tag is present. -/
def numPart (tags : Tags) (k : Str) (suf : Str) : Option Str :=
  match lookupTag tags k with
  | none => some []
  | some v =>
    v.head?.bind (fun v0 =>
      (pyInt (firstPart v0)).bind (fun n => some (pad2 n ++ suf)))

/-- The filename computation exactly as the claim states it. -/
def titleSpec (unidec : Str → Str) (tags : Tags) : Option Str :=
  (numPart tags kDISCNUMBER ['.']).bind (fun discs =>
    (numPart tags kTRACKNUMBER []).bind (fun tracks =>
      titleTail unidec tags (discs ++ tracks)))

/-- Disc/track prefix computation as amended: a prefix is produced only when
the tag is present with a value whose part before any `/` is nonempty. -/
def numPartA (tags : Tags) (k : Str) (suf : Str) : Option Str :=
  match lookupTag tags k with
  | none => some []
  | some v =>
    v.head?.bind (fun v0 =>
      if firstPart v0 = [] then some []
      else (pyInt (firstPart v0)).bind (fun n => some (pad2 n ++ suf)))

/-- The filename computation as the amended claim states it. -/
def titleSpecA (unidec : Str → Str) (tags : Tags) : Option Str :=
  (numPartA tags kDISCNUMBER ['.']).bind (fun discs =>
    (numPartA tags kTRACKNUMBER []).bind (fun tracks =>
      titleTail unidec tags (discs ++ tracks)))

lemma firstPart_nil : firstPart [] = [] := by decide

/-- C6 (amended): for every flac file under the Rewrite policy, `get_title`
computes the zero-padded two-digit disc number followed by `.` when the
DISCNUMBER tag is present with a nonempty numeral before any `/`, then
likewise the two-digit track number for TRACKNUMBER, then a space when either
prefix was produced, then the normalized TITLE (with `/` replaced by `-`);
a missing TITLE tag (and a present tag with an empty value list, or a
nonempty, non-numeric disc/track numeral) is an error. -/
theorem get_title_eq_titleSpecA (unidec : Str → Str) (tags : Tags) :
    get_title unidec tags = titleSpecA unidec tags := by
  rw [get_title, titleSpecA, numPartA, numPartA]
  rcases hd : lookupTag tags kDISCNUMBER with - | dvl
  · rcases ht : lookupTag tags kTRACKNUMBER with - | tvl
    · simp [firstPart_nil]
    · rcases htv : tvl.head? with - | tv0
      · simp [htv]
      · simp only [htv, Option.getD_none, Option.getD_some, Option.some_bind, Option.none_bind,
          List.head?_cons, firstPart_nil, if_pos, List.nil_append]
        by_cases htp : firstPart tv0 = []
        · simp [htp, firstPart_nil]
        · rcases hpi : pyInt (firstPart tv0) with - | n
          · simp [htp, hpi, firstPart_nil]
          · simp [htp, hpi, firstPart_nil]
  · rcases hdv : dvl.head? with - | dv0
    · simp [hdv]
    · rcases ht : lookupTag tags kTRACKNUMBER with - | tvl
      · simp only [hdv, Option.getD_none, Option.getD_some, Option.some_bind, Option.none_bind,
          List.head?_cons]
        by_cases hdp : firstPart dv0 = []
        · simp [hdp, firstPart_nil]
        · rcases hpd : pyInt (firstPart dv0) with - | nd
          · simp [hdp, hpd, firstPart_nil]
          · simp [hdp, hpd, firstPart_nil]
      · rcases htv : tvl.head? with - | tv0
        · simp only [hdv, htv, Option.getD_some, Option.some_bind, Option.none_bind]
          by_cases hdp : firstPart dv0 = []
          · simp [hdp]
          · rcases hpd : pyInt (firstPart dv0) with - | nd
            · simp [hdp, hpd]
            · simp [hdp, hpd]
        · simp only [hdv, htv, Option.getD_some, Option.some_bind]
          by_cases hdp : firstPart dv0 = []
          · by_cases htp : firstPart tv0 = []
            · simp [hdp, htp]
            · rcases hpi : pyInt (firstPart tv0) with - | n
              · simp [hdp, htp, hpi]
              · simp [hdp, htp, hpi]
          · rcases hpd : pyInt (firstPart dv0) with - | nd
            · by_cases htp : firstPart tv0 = []
              · simp [hdp, hpd, htp]
              · rcases hpi : pyInt (firstPart tv0) with - | n
                · simp [hdp, hpd, htp, hpi]
                · simp [hdp, hpd, htp, hpi]
            · by_cases htp : firstPart tv0 = []
              · simp [hdp, hpd, htp]
              · rcases hpi : pyInt (firstPart tv0) with - | n
                · simp [hdp, hpd, htp, hpi]
                · simp [hdp, hpd, htp, hpi]


/-- C6 (counterexample): with tags `{DISCNUMBER: [""], TITLE: ["T"]}` the
DISCNUMBER tag is present, yet `get_title` produces no disc prefix at all
(result `T`), while the claimed computation demands a two-digit prefix (and has
no defined value on the empty numeral). -/
theorem get_title_c6_counterexample :
    get_title id [(kDISCNUMBER, [[]]), (kTITLE, [['T']])] = some ['T'] ∧
    get_title id [(kDISCNUMBER, [[]]), (kTITLE, [['T']])] ≠
      titleSpec id [(kDISCNUMBER, [[]]), (kTITLE, [['T']])] ∧
    (lookupTag [(kDISCNUMBER, [[]]), (kTITLE, [['T']])] kDISCNUMBER).isSome = true := by
  refine ⟨by decide, by decide, by decide⟩

/-! ### Tag synchronization (`sync_flac`) -/

/-- The transcode formats handled by `sync_flac` (any other format string
raises in the source before touching tags). -/
inductive Fmt | ogg | mp3

/-- The replaygain keys excluded from the mp3 comparison in `sync_flac`
(they cannot be represented precisely in the MP3 format). -/
def rgKeys : List Str :=
  ["replaygain_track_gain".data, "replaygain_track_peak".data,
   "replaygain_album_gain".data, "replaygain_album_peak".data]

/-- Removal of the replaygain keys (`del src_tags[tag]` loop). -/
def delRGKeys (t : Tags) : Tags := t.filter (fun p => !(rgKeys.contains p.1))

/-- Python `dict` equality of two tag mappings: same keys, equal value lists. -/
def tagsEqB (a b : Tags) : Bool :=
  (a.map Prod.fst ++ b.map Prod.fst).all (fun k => lookupTag a k == lookupTag b k)

/-- The tag reconciliation of `sync_flac`: for mp3, keys the EasyID3 mapper
cannot represent (`easyKey` abstracts the mutagen `EasyID3KeyError` test) are
first deleted from the source tags; replaygain keys are dropped from both
sides of the comparison; when the comparison differs, the destination tags are
replaced wholesale by the (filtered) source tags, else left unchanged.
The copy-to-temp / rename I/O around this is not modelled. -/
def sync_flac_tags (format : Fmt) (easyKey : Str → Bool) (srcTags dstTags : Tags) : Tags :=
  let src1 := match format with
    | .mp3 => srcTags.filter (fun p => easyKey p.1)
    | .ogg => srcTags
  let srcCmp := match format with
    | .mp3 => delRGKeys src1
    | .ogg => src1
  let dstCmp := match format with
    | .mp3 => delRGKeys dstTags
    | .ogg => dstTags
  if tagsEqB srcCmp dstCmp then dstTags else src1

/-- Restriction of a tag mapping modulo the declared exclusions of the claim
(for mp3, the replaygain keys; for ogg, nothing). -/
def modEx (format : Fmt) (t : Tags) : Tags :=
  match format with
  | .mp3 => delRGKeys t
  | .ogg => t

/-- Restriction of the source tags to the keys the destination tag mapper can
represent (mp3 only). -/
def restrictEasy (format : Fmt) (easyKey : Str → Bool) (t : Tags) : Tags :=
  match format with
  | .mp3 => t.filter (fun p => easyKey p.1)
  | .ogg => t

/-- Equality of tag mappings as key-to-values lookup functions. -/
def tagLookupEq (a b : Tags) : Prop := ∀ k, lookupTag a k = lookupTag b k

lemma lookup_eq_none_of_not_key (a : Tags) (k : Str) (h : k ∉ a.map Prod.fst) :
    lookupTag a k = none := by
  rw [lookupTag, List.find?_eq_none.2]
  · rfl
  · intro p hp hbeq
    exact h (List.mem_map.2 ⟨p, hp, beq_iff_eq.mp hbeq⟩)

lemma tagsEqB_correct (a b : Tags) (h : tagsEqB a b = true) : tagLookupEq a b := by
  intro k
  by_cases hk : k ∈ a.map Prod.fst ++ b.map Prod.fst
  · have := (List.all_eq_true.mp h) k hk
    exact beq_iff_eq.mp this
  · rw [List.mem_append] at hk
    push_neg at hk
    rw [lookup_eq_none_of_not_key a k hk.1, lookup_eq_none_of_not_key b k hk.2]

lemma tagLookupEq_symm {a b : Tags} (h : tagLookupEq a b) : tagLookupEq b a :=
  fun k => (h k).symm

/-- C4 (amended): after tag-sync the destination's tag mapping, modulo the
declared exclusions, equals the source's tag mapping restricted (for mp3) to
the keys the EasyID3 mapper can represent, modulo the same exclusions; for ogg
the equality is exact with no exclusions. -/
theorem sync_flac_c4_amended (format : Fmt) (easyKey : Str → Bool) (srcTags dstTags : Tags) :
    tagLookupEq (modEx format (sync_flac_tags format easyKey srcTags dstTags))
      (modEx format (restrictEasy format easyKey srcTags)) := by
  cases format with
  | ogg =>
    rw [sync_flac_tags]
    by_cases h : tagsEqB srcTags dstTags = true
    · rw [if_pos h]
      exact tagLookupEq_symm (tagsEqB_correct _ _ h)
    · rw [if_neg h]
      exact fun k => rfl
  | mp3 =>
    rw [sync_flac_tags]
    by_cases h : tagsEqB (delRGKeys (srcTags.filter (fun p => easyKey p.1)))
        (delRGKeys dstTags) = true
    · rw [if_pos h]
      exact tagLookupEq_symm (tagsEqB_correct _ _ h)
    · rw [if_neg h]
      exact fun k => rfl

/-- Concrete EasyID3-representable-key oracle for the C4 counterexample. -/
def c4easy : Str → Bool := fun k => k == ['t','i','t','l','e']
/-- Concrete source tags for the C4 counterexample. -/
def c4src : Tags := [(['t','i','t','l','e'], [['T']]), (['c','u','s','t','o','m'], [['x']])]
/-- Concrete destination tags for the C4 counterexample. -/
def c4dst : Tags := [(['t','i','t','l','e'], [['T']])]

/-- C4 (counterexample): for mp3, a source tag key the EasyID3 mapper cannot
represent (here `custom`) is deleted from the source before comparison and
copy, so after sync the destination lacks it even though it is not among the
declared replaygain exclusions — the claimed equality fails. -/
theorem sync_flac_c4_counterexample :
    ¬ tagLookupEq (modEx .mp3 (sync_flac_tags .mp3 c4easy c4src c4dst))
      (modEx .mp3 c4src) := by
  intro h
  exact absurd (h ['c','u','s','t','o','m']) (by decide)


/-! ### The access filter (`_has_access`) -/

/-- Python `os.path.dirname` (posixpath): the head before the last slash,
with trailing slashes stripped unless the head is all slashes. -/
def dirname (p : Str) : Str :=
  let r := p.reverse
  let base := r.takeWhile (fun c => c ≠ '/')
  if base.length = r.length then []
  else
    let headRev := r.drop base.length
    let stripped := headRev.dropWhile (fun c => c = '/')
    if stripped = [] then headRev.reverse else stripped.reverse

/-- Python `os.path.join` for two components. -/
def joinPath (a b : Str) : Str :=
  if b.head? = some '/' then b
  else if a = [] ∨ a.getLast? = some '/' then a ++ b
  else a ++ '/' :: b


/-- A key of the Python `access` dict: the source stores tuple keys
`(path, target)` but its membership test `path in access` looks up the bare
path string, so both key shapes must be represented. -/
inductive PyKey
  | str (v : Str)
  | pair (v : Str) (t : Bool)
deriving DecidableEq

abbrev Memo := List (PyKey × Bool)

/-- Python `k in access`. -/
def memoHasKey (m : Memo) (k : PyKey) : Bool := m.any (fun e => e.1 == k)
/-- Python `access[k]`; a missing key is a `KeyError`, read as `none`. -/
def memoGet (m : Memo) (k : PyKey) : Option Bool := (m.find? (fun e => e.1 == k)).map Prod.snd
/-- Python `access[k] = b` (update in place or append). -/
def memoSet (m : Memo) (k : PyKey) (b : Bool) : Memo :=
  if memoHasKey m k then m.map (fun e => if e.1 == k then (k, b) else e) else m ++ [(k, b)]

/-- Kind of a filesystem entry as seen by `os.lstat`. -/
inductive FKind
  | lnk (tgt : Str)
  | dir
  | file

/-- The fields of `os.lstat` used by `_has_access`. -/
structure StatR where
  kind : FKind
  uid : Nat
  gid : Nat
  mode : Nat

/-- The access filter `_has_access` of the source, over an abstract filesystem
`fs`, with explicit memo state, recursion fuel (`none` models Python recursion
blowup / a `KeyError` on the never-taken memo-hit path), and a trace of the
paths passed to `os.lstat`.  Note the memo lookup guard is `path in access` —
the bare string tested against `(path, target)` tuple keys — exactly as in the
source. -/
def _has_access (fs : Str → Option StatR) (uid : Nat) (groups : List Nat) (srcLen : Nat) :
    Nat → Str → Bool → Memo → Option (Bool × Memo × List Str)
  | 0, _, _, _ => none
  | fuel+1, path, target, memo =>
    if memoHasKey memo (.str path) then
      (memoGet memo (.pair path target)).map (fun b => (b, memo, []))
    else
      match (if dirname path ≠ path then
               _has_access fs uid groups srcLen fuel (dirname path) target memo
             else some (true, memo, [])) with
      | none => none
      | some (pb, m1, tr1) =>
        if pb = false then some (false, memoSet m1 (.pair path target) false, tr1)
        else
          match fs path with
          | none => some (false, memoSet m1 (.pair path target) false, tr1 ++ [path])
          | some st =>
            match st.kind with
            | .lnk tgt =>
              match _has_access fs uid groups srcLen fuel (joinPath (dirname path) tgt) true m1 with
              | none => none
              | some (b, m2, tr2) =>
                some (b, memoSet m2 (.pair path target) b, tr1 ++ path :: tr2)
            | .dir =>
              let b :=
                if st.uid = uid then
                  if target || decide (path.length ≤ srcLen) then (st.mode &&& 64) != 0
                  else (st.mode &&& (256 + 64)) == (256 + 64)
                else if groups.contains st.gid then
                  if target || decide (path.length ≤ srcLen) then (st.mode &&& 8) != 0
                  else (st.mode &&& (32 + 8)) == (32 + 8)
                else
                  if target || decide (path.length ≤ srcLen) then (st.mode &&& 1) != 0
                  else (st.mode &&& (4 + 1)) == (4 + 1)
              some (b, memoSet m1 (.pair path target) b, tr1 ++ [path])
            | .file =>
              let b :=
                if st.uid = uid then (st.mode &&& 256) != 0
                else if groups.contains st.gid then (st.mode &&& 32) != 0
                else (st.mode &&& 4) != 0
              some (b, memoSet m1 (.pair path target) b, tr1 ++ [path])

/-- The access filter including the `user is None` short-circuit. -/
def has_access (user : Option (Nat × List Nat)) (fs : Str → Option StatR) (srcLen : Nat)
    (fuel : Nat) (path : Str) (target : Bool) (memo : Memo) :
    Option (Bool × Memo × List Str) :=
  match user with
  | none => some (true, memo, [])
  | some (uid, groups) => _has_access fs uid groups srcLen fuel path target memo

/-- A three-entry filesystem `/`, `/s` (the source root), `/s/a` for the C5
evaluation. -/
def c5fs : Str → Option StatR := fun p =>
  if p = ['/'] then some ⟨.dir, 0, 0, 493⟩
  else if p = ['/','s'] then some ⟨.dir, 1000, 1000, 493⟩
  else if p = ['/','s','/','a'] then some ⟨.file, 1000, 1000, 420⟩
  else none

/-- The memo contents after one query of `/s/a`. -/
def c5memo : Memo :=
  [(.pair ['/'] false, true), (.pair ['/','s'] false, true),
   (.pair ['/','s','/','a'] false, true)]

/-- C5 (code bug evaluation): querying `/s/a` twice with the same
`(path, asTarget)` pair: the first query records its result in the memo under
the pair key, but the second query stats all three ancestors again (same
nonempty lstat trace) instead of answering from the memo, because the guard
`path in access` compares the bare string with tuple keys and never hits. -/
theorem has_access_c5_code_bug :
    _has_access c5fs 1000 [1000] 2 10 ['/','s','/','a'] false [] =
      some (true, c5memo, [['/'], ['/','s'], ['/','s','/','a']]) ∧
    memoGet c5memo (.pair ['/','s','/','a'] false) = some true ∧
    _has_access c5fs 1000 [1000] 2 10 ['/','s','/','a'] false c5memo =
      some (true, c5memo, [['/'], ['/','s'], ['/','s','/','a']]) := by
  refine ⟨by decide, by decide, by decide⟩

/-- The memo-hit branch can never be taken: every key ever stored is a
`(path, target)` pair, while the guard looks up a bare string. -/
lemma memo_never_hit (m : Memo) (p : Str)
    (h : ∀ e ∈ m, ∃ v t, e.1 = PyKey.pair v t) :
    memoHasKey m (.str p) = false := by
  rw [memoHasKey, List.any_eq_false]
  intro e he
  obtain ⟨v, t, hv⟩ := h e he
  rw [hv]
  simp

/-- Memo updates only ever store pair keys. -/
lemma memoSet_pairs (m : Memo) (v : Str) (t : Bool) (b : Bool)
    (h : ∀ e ∈ m, ∃ w s, e.1 = PyKey.pair w s) :
    ∀ e ∈ memoSet m (.pair v t) b, ∃ w s, e.1 = PyKey.pair w s := by
  intro e he
  rw [memoSet] at he
  by_cases hk : memoHasKey m (.pair v t) = true
  · rw [if_pos hk] at he
    obtain ⟨e0, he0, hmap⟩ := List.mem_map.1 he
    by_cases hb : (e0.1 == PyKey.pair v t) = true
    · rw [if_pos hb] at hmap
      exact ⟨v, t, by rw [← hmap]⟩
    · rw [if_neg hb] at hmap
      exact h e0 he0 |>.imp (fun w hw => hw.imp (fun s hs => by rw [← hmap]; exact hs))
  · rw [if_neg hk] at he
    rcases List.mem_append.1 he with hm | hm
    · exact h e hm
    · have : e = (PyKey.pair v t, b) := by simpa using hm
      exact ⟨v, t, by rw [this]⟩


-- ### The reconciliation engine (`sync_paths`)

/-- The active name-normalization policy (`--rewrite` / `--android` flags). -/
inductive Policy
  | ident
  | rewrite
  | android
deriving DecidableEq

/-- The `.flac` suffix appended back to a physical base name. -/
def fExt : Str := ['.','f','l','a','c']

/-- Python `name.split(".")[-1]`. -/
def extLast (n : Str) : Str := (n.splitOn '.').getLastD []

/-- Python `".".join(name.split(".")[0:-1])`. -/
def dropExtDot (n : Str) : Str := [('.' : Char)].intercalate ((n.splitOn '.').dropLast)

/-- The `.{format}` suffix. -/
def dotFmt (fmt : Str) : Str := '.' :: fmt

/-- Python `set.add`, modelled on a duplicate-free list in a fixed insertion
order (Python set iteration order is unspecified; this is a deterministic
refinement). -/
def setAdd (l : List Str) (x : Str) : List Str := if l.contains x then l else l ++ [x]

/-- Python `dict` assignment: update the value in place, else append. -/
def amapSet : List (Str × Str) → Str → Str → List (Str × Str)
  | [], k, v => [(k, v)]
  | e :: rest, k, v => if e.1 = k then (k, v) :: rest else e :: amapSet rest k v

/-- Python `dict` lookup. -/
def amapGet (m : List (Str × Str)) (k : Str) : Option Str :=
  (m.find? (fun e => e.1 == k)).map Prod.snd

/-- The `modified_name` computation for non-flac source files
(lines choosing `safe_chars_only(name, False)` / `android_safe_chars_only`). -/
def modifiedNonFlac (P : Policy) (unidec : Str → Str) (n : Str) : Option Str :=
  match P with
  | .ident => some n
  | .rewrite => safe_chars_only unidec n false
  | .android => android_safe_chars_only n

/-- The `modified_name` computation for flac source files: under Rewrite, the
normalized directory part joined with the tag-derived title. -/
def modifiedFlac (P : Policy) (unidec : Str → Str) (tagsOf : Str → Tags) (n : Str) : Option Str :=
  match P with
  | .ident => some n
  | .rewrite =>
    (safe_chars_only unidec (dirname n) false).bind (fun d =>
      (get_title unidec (tagsOf (n ++ fExt))).bind (fun t => some (joinPath d t)))
  | .android => android_safe_chars_only n

/-- The five tables built from `src_files` (lines 290-317 of the source). -/
structure MapsOut where
  flacFiles : List Str
  flacMap : List (Str × Str)
  asFormat : List Str
  notFlacFiles : List Str
  notFlacMap : List (Str × Str)
deriving DecidableEq

/-- The initial empty tables. -/
def emptyMaps : MapsOut := ⟨[], [], [], [], []⟩

/-- One iteration of the `for name in src_files` loop: classify by extension,
normalize, and extend the tables; a failed normalization aborts the run. -/
def buildStep (P : Policy) (unidec : Str → Str) (tagsOf : Str → Tags) (fmt : Str)
    (acc : MapsOut) (name : Str) : Option MapsOut :=
  if extLast name == ['f','l','a','c'] then
    let base := dropExtDot name
    (modifiedFlac P unidec tagsOf base).map (fun mn =>
      ⟨setAdd acc.flacFiles mn, amapSet acc.flacMap mn base,
       setAdd acc.asFormat (mn ++ dotFmt fmt), acc.notFlacFiles, acc.notFlacMap⟩)
  else
    (modifiedNonFlac P unidec name).map (fun mn =>
      ⟨acc.flacFiles, acc.flacMap, setAdd acc.asFormat mn,
       setAdd acc.notFlacFiles mn, amapSet acc.notFlacMap mn name⟩)

/-- The whole mapping phase over the source file list. -/
def buildMaps (P : Policy) (unidec : Str → Str) (tagsOf : Str → Tags) (fmt : Str)
    (srcFiles : List Str) : Option MapsOut :=
  srcFiles.foldlM (buildStep P unidec tagsOf fmt) emptyMaps

/-- The inputs of one reconciliation run: the scanned inventories (walks are
I/O, so they are parameters), the policy and flags, and oracles for
modification times and the tag-difference test of `sync_flac`. -/
structure SyncIn where
  policy : Policy
  unidec : Str → Str
  tagsOf : Str → Tags
  fmt : Str
  srcFiles : List Str
  srcDirs : List Str
  dstFiles : List Str
  dstDirs : List Str
  fat : Bool
  srcMtime : Str → Int
  dstMtime : Str → Int
  tagsDiffer : Str → Str → Bool

/-- The conversion of a scanned list to a Python set. -/
def dedup (l : List Str) : List Str := l.foldl setAdd []

/-- Every intermediate set computed by `sync_paths` between the scan and the
job dispatch. -/
structure Recon where
  maps : MapsOut
  dstFiles0 : List Str
  dstDirs0 : List Str
  srcDirs0 : List Str
  dstFormat0 : List Str
  refreshedFlac : List Str
  refreshedOther : List Str
  dstFormat1 : List Str
  dstFiles2 : List Str
  delFiles : List Str
  delDirs : List Str
  newDirs : List Str
  copyJobs : List Str
  transJobs : List Str
  syncJobs : List Str
deriving DecidableEq

/-- The destination file set. -/
def dstFiles0Of (I : SyncIn) : List Str := dedup I.dstFiles

/-- Destination files with the target extension, extension stripped
(`dst_format_files`). -/
def dstFormat0Of (I : SyncIn) : List Str :=
  ((dstFiles0Of I).filter (fun n => extLast n == I.fmt)).map dropExtDot

/-- The `src_mtime >= dst_mtime` staleness test for a matched flac name. -/
def flacStale (I : SyncIn) (M : MapsOut) (n : Str) : Bool :=
  decide (I.srcMtime ((amapGet M.flacMap n).getD [] ++ fExt) ≥ I.dstMtime (n ++ dotFmt I.fmt))

/-- The names refreshed (unlinked) by the flac staleness loop, line 326. -/
def refreshedFlacOf (I : SyncIn) (M : MapsOut) : List Str :=
  (M.flacFiles.filter (fun n => (dstFormat0Of I).contains n)).filter (flacStale I M)

/-- `dst_format_files` after the refresh removals. -/
def dstFormat1Of (I : SyncIn) (M : MapsOut) : List Str :=
  (dstFormat0Of I).filter (fun n => !((refreshedFlacOf I M).contains n))

/-- `dst_files` after the flac refresh removals. -/
def dstFiles1Of (I : SyncIn) (M : MapsOut) : List Str :=
  (dstFiles0Of I).filter (fun n =>
    !(((refreshedFlacOf I M).map (fun x => x ++ dotFmt I.fmt)).contains n))

/-- The staleness test for a matched non-flac name. -/
def otherStale (I : SyncIn) (M : MapsOut) (n : Str) : Bool :=
  decide (I.srcMtime ((amapGet M.notFlacMap n).getD []) ≥ I.dstMtime n)

/-- The names refreshed by the non-flac staleness loop, line 335. -/
def refreshedOtherOf (I : SyncIn) (M : MapsOut) : List Str :=
  (M.notFlacFiles.filter (fun n => (dstFiles1Of I M).contains n)).filter (otherStale I M)

/-- `dst_files` after both refresh loops. -/
def dstFiles2Of (I : SyncIn) (M : MapsOut) : List Str :=
  (dstFiles1Of I M).filter (fun n => !((refreshedOtherOf I M).contains n))

/-- Assembly of all decision sets of one run, as the source computes them:
orphan deletions, directory deletions and creations, and the three job
lists handed to the worker pool. -/
def mkRecon (I : SyncIn) (M : MapsOut) : Recon :=
  ⟨M, dstFiles0Of I, dedup I.dstDirs, dedup I.srcDirs, dstFormat0Of I,
   refreshedFlacOf I M, refreshedOtherOf I M, dstFormat1Of I M, dstFiles2Of I M,
   (dstFiles2Of I M).filter (fun n => !(M.asFormat.contains n)),
   (dedup I.dstDirs).filter (fun n => !((dedup I.srcDirs).contains n)),
   (dedup I.srcDirs).filter (fun n => !((dedup I.dstDirs).contains n)),
   M.notFlacFiles.filter (fun n => !((dstFiles2Of I M).contains n)),
   M.flacFiles.filter (fun n => !((dstFormat1Of I M).contains n)),
   M.flacFiles.filter (fun n => (dstFormat1Of I M).contains n)⟩

/-- The scan-and-diff phase; `none` when a normalization assertion fires
before any mutation. -/
def reconcile (I : SyncIn) : Option Recon :=
  (buildMaps I.policy I.unidec I.tagsOf I.fmt I.srcFiles).map (mkRecon I)

/-- A filesystem action of the mutation phase, or a `safe_filename`
assertion (`check`). -/
inductive Op
  | check (n : Str)
  | unlink (n : Str)
  | rmtree (n : Str)
  | mkdir (n : Str)
  | utime (n : Str)
  | copy (s d : Str)
  | transcode (s d : Str)
  | retag (s d : Str)
deriving DecidableEq

/-- The actions of one `sync_flac` job (tag reconciliation). -/
def syncFlacOps (I : SyncIn) (s d : Str) : List Op :=
  [.check s, .check d] ++ (if I.tagsDiffer s d then [.retag s d] else []) ++
  (if I.fat then [.utime (d ++ dotFmt I.fmt)] else [])

/-- The actions of one `copy_file` job. -/
def copyFileOps (I : SyncIn) (s d : Str) : List Op :=
  [.check s, .check d, .copy s d] ++ (if I.fat then [.utime d] else [])

/-- The actions of one `copy_flac` job (transcode, then tag sync). -/
def copyFlacOps (I : SyncIn) (s d : Str) : List Op :=
  [.check s, .check d, .transcode s d] ++ syncFlacOps I s d

/-- The unlinks performed by the two staleness loops — the source performs
these without any `safe_filename` assertion. -/
def refreshOps (I : SyncIn) (R : Recon) : List Op :=
  R.refreshedFlac.map (fun n => .unlink (n ++ dotFmt I.fmt)) ++ R.refreshedOther.map .unlink

/-- The per-item action blocks of the rest of the run, in source order. -/
def mainBlocks (I : SyncIn) (R : Recon) : List (List Op) :=
  R.delFiles.map (fun n => [.check n, .unlink n]) ++
  R.delDirs.map (fun n => [.check n, .rmtree n]) ++
  R.newDirs.map (fun n => [.check n, .mkdir n]) ++
  [if I.fat then (R.srcDirs0.filter (fun n => R.dstDirs0.contains n)).map Op.utime else []] ++
  R.copyJobs.map (fun n => copyFileOps I ((amapGet R.maps.notFlacMap n).getD []) n) ++
  R.transJobs.map (fun n => copyFlacOps I ((amapGet R.maps.flacMap n).getD []) n) ++
  R.syncJobs.map (fun n => syncFlacOps I ((amapGet R.maps.flacMap n).getD []) n)

/-- All actions after the staleness loops. -/
def mainOps (I : SyncIn) (R : Recon) : List Op := (mainBlocks I R).flatten

/-- Executed prefix of an action list: a failing `safe_filename` assertion
aborts the run at that point. -/
def runChecks : List Op → List Op
  | [] => []
  | .check n :: rest => if safe_filename n then .check n :: runChecks rest else [.check n]
  | .unlink n :: rest => .unlink n :: runChecks rest
  | .rmtree n :: rest => .rmtree n :: runChecks rest
  | .mkdir n :: rest => .mkdir n :: runChecks rest
  | .utime n :: rest => .utime n :: runChecks rest
  | .copy s d :: rest => .copy s d :: runChecks rest
  | .transcode s d :: rest => .transcode s d :: runChecks rest
  | .retag s d :: rest => .retag s d :: runChecks rest

/-- The full mutation trace of one `sync_paths` run (empty when the
scan/normalize phase aborts first). -/
def sync_paths_trace (I : SyncIn) : List Op :=
  match reconcile I with
  | none => []
  | some R => runChecks (refreshOps I R ++ mainOps I R)

/-- The mutations named by the claim (file unlink, recursive directory
removal, directory creation, file copy, transcode output, tag rewrite);
`utime` and `check` are not among them. -/
def isMut : Op → Bool
  | .unlink _ => true
  | .rmtree _ => true
  | .mkdir _ => true
  | .copy _ _ => true
  | .transcode _ _ => true
  | .retag _ _ => true
  | .check _ => false
  | .utime _ => false

/-- The relative names an action touches. -/
def opNames : Op → List Str
  | .check n => [n]
  | .unlink n => [n]
  | .rmtree n => [n]
  | .mkdir n => [n]
  | .utime n => [n]
  | .copy s d => [s, d]
  | .transcode s d => [s, d]
  | .retag s d => [s, d]

/-- Scans an action list: every mutation must name only paths that already
passed a `safe_filename` check earlier in the list. -/
def guardedFrom (checked : List Str) : List Op → Bool
  | [] => true
  | .check n :: rest =>
    if safe_filename n then guardedFrom (n :: checked) rest else guardedFrom checked rest
  | op :: rest =>
    (!(isMut op) || (opNames op).all (fun n => checked.contains n)) && guardedFrom checked rest

-- quick evaluation sanity on the C1 counterexample input
/-- A minimal run with one stale flac file for C1/refresh evaluation. -/
def c1in : SyncIn :=
  { policy := .ident
    unidec := fun s => s
    tagsOf := fun _ => []
    fmt := ['o','g','g']
    srcFiles := [['a','.','f','l','a','c']]
    srcDirs := []
    dstFiles := [['a','.','o','g','g']]
    dstDirs := []
    fat := false
    srcMtime := fun _ => 0
    dstMtime := fun _ => 0
    tagsDiffer := fun _ _ => false }

example : (sync_paths_trace c1in).head? = some (.unlink ['a','.','o','g','g']) := by decide
example : guardedFrom [] (sync_paths_trace c1in) = false := by decide



-- ## C1 lemma layer

/-- Whether every check in a list passes. -/
def checksPass (l : List Op) : Bool :=
  l.all (fun op => match op with | .check n => safe_filename n | _ => true)

/-- The checked-name accumulator after scanning a list. -/
def checkedAfter (c : List Str) : List Op → List Str
  | [] => c
  | .check n :: rest => checkedAfter (if safe_filename n then n :: c else c) rest
  | _ :: rest => checkedAfter c rest

lemma runChecks_cons_nonCheck (op : Op) (rest : List Op) (h : ∀ n, op ≠ .check n) :
    runChecks (op :: rest) = op :: runChecks rest := by
  cases op with
  | check n => exact absurd rfl (h n)
  | unlink n => rfl
  | rmtree n => rfl
  | mkdir n => rfl
  | utime n => rfl
  | copy s d => rfl
  | transcode s d => rfl
  | retag s d => rfl

lemma guardedFrom_cons_nonCheck (c : List Str) (op : Op) (rest : List Op)
    (h : ∀ n, op ≠ .check n) :
    guardedFrom c (op :: rest) =
      ((!(isMut op) || (opNames op).all (fun n => c.contains n)) && guardedFrom c rest) := by
  cases op with
  | check n => exact absurd rfl (h n)
  | unlink n => rfl
  | rmtree n => rfl
  | mkdir n => rfl
  | utime n => rfl
  | copy s d => rfl
  | transcode s d => rfl
  | retag s d => rfl

lemma runChecks_append (a b : List Op) :
    runChecks (a ++ b) = if checksPass a then runChecks a ++ runChecks b else runChecks a := by
  induction a with
  | nil => simp [checksPass, runChecks]
  | cons op rest ih =>
    cases op with
    | check n =>
      by_cases hs : safe_filename n = true
      · rw [List.cons_append]
        rw [show runChecks (Op.check n :: (rest ++ b)) =
          Op.check n :: runChecks (rest ++ b) from by rw [runChecks, if_pos hs]]
        rw [show runChecks (Op.check n :: rest) = Op.check n :: runChecks rest from by
          rw [runChecks, if_pos hs]]
        rw [show checksPass (Op.check n :: rest) = checksPass rest from by
          simp [checksPass, hs]]
        rw [ih]
        by_cases hp : checksPass rest = true
        · rw [if_pos hp, if_pos hp]
          rfl
        · rw [if_neg hp, if_neg hp]
      · have hs2 : safe_filename n = false := by simpa using hs
        rw [List.cons_append]
        rw [show runChecks (Op.check n :: (rest ++ b)) = [Op.check n] from by
          rw [runChecks, if_neg hs]]
        rw [show runChecks (Op.check n :: rest) = [Op.check n] from by
          rw [runChecks, if_neg hs]]
        rw [show checksPass (Op.check n :: rest) = false from by simp [checksPass, hs2]]
        rfl
    | unlink n =>
      rw [List.cons_append, runChecks_cons_nonCheck _ _ (by intro k h; cases h),
        runChecks_cons_nonCheck _ _ (by intro k h; cases h), ih]
      rw [show checksPass (Op.unlink n :: rest) = checksPass rest from by simp [checksPass]]
      by_cases hp : checksPass rest = true
      · rw [if_pos hp, if_pos hp]
        rfl
      · rw [if_neg hp, if_neg hp]
    | rmtree n =>
      rw [List.cons_append, runChecks_cons_nonCheck _ _ (by intro k h; cases h),
        runChecks_cons_nonCheck _ _ (by intro k h; cases h), ih]
      rw [show checksPass (Op.rmtree n :: rest) = checksPass rest from by simp [checksPass]]
      by_cases hp : checksPass rest = true
      · rw [if_pos hp, if_pos hp]
        rfl
      · rw [if_neg hp, if_neg hp]
    | mkdir n =>
      rw [List.cons_append, runChecks_cons_nonCheck _ _ (by intro k h; cases h),
        runChecks_cons_nonCheck _ _ (by intro k h; cases h), ih]
      rw [show checksPass (Op.mkdir n :: rest) = checksPass rest from by simp [checksPass]]
      by_cases hp : checksPass rest = true
      · rw [if_pos hp, if_pos hp]
        rfl
      · rw [if_neg hp, if_neg hp]
    | utime n =>
      rw [List.cons_append, runChecks_cons_nonCheck _ _ (by intro k h; cases h),
        runChecks_cons_nonCheck _ _ (by intro k h; cases h), ih]
      rw [show checksPass (Op.utime n :: rest) = checksPass rest from by simp [checksPass]]
      by_cases hp : checksPass rest = true
      · rw [if_pos hp, if_pos hp]
        rfl
      · rw [if_neg hp, if_neg hp]
    | copy s d =>
      rw [List.cons_append, runChecks_cons_nonCheck _ _ (by intro k h; cases h),
        runChecks_cons_nonCheck _ _ (by intro k h; cases h), ih]
      rw [show checksPass (Op.copy s d :: rest) = checksPass rest from by simp [checksPass]]
      by_cases hp : checksPass rest = true
      · rw [if_pos hp, if_pos hp]
        rfl
      · rw [if_neg hp, if_neg hp]
    | transcode s d =>
      rw [List.cons_append, runChecks_cons_nonCheck _ _ (by intro k h; cases h),
        runChecks_cons_nonCheck _ _ (by intro k h; cases h), ih]
      rw [show checksPass (Op.transcode s d :: rest) = checksPass rest from by
        simp [checksPass]]
      by_cases hp : checksPass rest = true
      · rw [if_pos hp, if_pos hp]
        rfl
      · rw [if_neg hp, if_neg hp]
    | retag s d =>
      rw [List.cons_append, runChecks_cons_nonCheck _ _ (by intro k h; cases h),
        runChecks_cons_nonCheck _ _ (by intro k h; cases h), ih]
      rw [show checksPass (Op.retag s d :: rest) = checksPass rest from by simp [checksPass]]
      by_cases hp : checksPass rest = true
      · rw [if_pos hp, if_pos hp]
        rfl
      · rw [if_neg hp, if_neg hp]

lemma runChecks_eq_self (a : List Op) (h : checksPass a = true) : runChecks a = a := by
  induction a with
  | nil => rfl
  | cons op rest ih =>
    have hrest : checksPass rest = true := by
      rw [checksPass, List.all_cons, Bool.and_eq_true] at h
      exact h.2
    cases op with
    | check n =>
      have hs : safe_filename n = true := by
        rw [checksPass, List.all_cons, Bool.and_eq_true] at h
        exact h.1
      rw [runChecks, if_pos hs, ih hrest]
    | unlink n => rw [runChecks_cons_nonCheck _ _ (by intro k hk; cases hk), ih hrest]
    | rmtree n => rw [runChecks_cons_nonCheck _ _ (by intro k hk; cases hk), ih hrest]
    | mkdir n => rw [runChecks_cons_nonCheck _ _ (by intro k hk; cases hk), ih hrest]
    | utime n => rw [runChecks_cons_nonCheck _ _ (by intro k hk; cases hk), ih hrest]
    | copy s d => rw [runChecks_cons_nonCheck _ _ (by intro k hk; cases hk), ih hrest]
    | transcode s d => rw [runChecks_cons_nonCheck _ _ (by intro k hk; cases hk), ih hrest]
    | retag s d => rw [runChecks_cons_nonCheck _ _ (by intro k hk; cases hk), ih hrest]

lemma guardedFrom_append (c : List Str) (a b : List Op) :
    guardedFrom c (a ++ b) = (guardedFrom c a && guardedFrom (checkedAfter c a) b) := by
  induction a generalizing c with
  | nil => simp [guardedFrom, checkedAfter]
  | cons op rest ih =>
    cases op with
    | check n =>
      by_cases hs : safe_filename n = true
      · rw [List.cons_append, guardedFrom, if_pos hs, ih,
          show guardedFrom c (Op.check n :: rest) = guardedFrom (n :: c) rest from by
            rw [guardedFrom, if_pos hs],
          show checkedAfter c (Op.check n :: rest) = checkedAfter (n :: c) rest from by
            rw [checkedAfter, if_pos hs]]
      · rw [List.cons_append, guardedFrom, if_neg hs, ih,
          show guardedFrom c (Op.check n :: rest) = guardedFrom c rest from by
            rw [guardedFrom, if_neg hs],
          show checkedAfter c (Op.check n :: rest) = checkedAfter c rest from by
            rw [checkedAfter, if_neg hs]]
    | unlink n =>
      rw [List.cons_append, guardedFrom_cons_nonCheck _ _ _ (by intro k hk; cases hk),
        guardedFrom_cons_nonCheck _ _ _ (by intro k hk; cases hk), ih,
        show checkedAfter c (Op.unlink n :: rest) = checkedAfter c rest from rfl,
        Bool.and_assoc]
    | rmtree n =>
      rw [List.cons_append, guardedFrom_cons_nonCheck _ _ _ (by intro k hk; cases hk),
        guardedFrom_cons_nonCheck _ _ _ (by intro k hk; cases hk), ih,
        show checkedAfter c (Op.rmtree n :: rest) = checkedAfter c rest from rfl,
        Bool.and_assoc]
    | mkdir n =>
      rw [List.cons_append, guardedFrom_cons_nonCheck _ _ _ (by intro k hk; cases hk),
        guardedFrom_cons_nonCheck _ _ _ (by intro k hk; cases hk), ih,
        show checkedAfter c (Op.mkdir n :: rest) = checkedAfter c rest from rfl,
        Bool.and_assoc]
    | utime n =>
      rw [List.cons_append, guardedFrom_cons_nonCheck _ _ _ (by intro k hk; cases hk),
        guardedFrom_cons_nonCheck _ _ _ (by intro k hk; cases hk), ih,
        show checkedAfter c (Op.utime n :: rest) = checkedAfter c rest from rfl,
        Bool.and_assoc]
    | copy s d =>
      rw [List.cons_append, guardedFrom_cons_nonCheck _ _ _ (by intro k hk; cases hk),
        guardedFrom_cons_nonCheck _ _ _ (by intro k hk; cases hk), ih,
        show checkedAfter c (Op.copy s d :: rest) = checkedAfter c rest from rfl,
        Bool.and_assoc]
    | transcode s d =>
      rw [List.cons_append, guardedFrom_cons_nonCheck _ _ _ (by intro k hk; cases hk),
        guardedFrom_cons_nonCheck _ _ _ (by intro k hk; cases hk), ih,
        show checkedAfter c (Op.transcode s d :: rest) = checkedAfter c rest from rfl,
        Bool.and_assoc]
    | retag s d =>
      rw [List.cons_append, guardedFrom_cons_nonCheck _ _ _ (by intro k hk; cases hk),
        guardedFrom_cons_nonCheck _ _ _ (by intro k hk; cases hk), ih,
        show checkedAfter c (Op.retag s d :: rest) = checkedAfter c rest from rfl,
        Bool.and_assoc]

/-- A block whose executed prefix is always guarded, whatever was checked
before. -/
def goodBlock (blk : List Op) : Prop := ∀ c, guardedFrom c (runChecks blk) = true

lemma guarded_flatten (bs : List (List Op)) (h : ∀ b ∈ bs, goodBlock b) (c : List Str) :
    guardedFrom c (runChecks bs.flatten) = true := by
  induction bs generalizing c with
  | nil => rfl
  | cons blk rest ih =>
    rw [List.flatten_cons, runChecks_append]
    by_cases hp : checksPass blk = true
    · rw [if_pos hp, guardedFrom_append, Bool.and_eq_true]
      exact ⟨h blk (by simp) c, ih (fun b hb => h b (by simp [hb])) _⟩
    · rw [if_neg hp]
      exact h blk (by simp) c



-- block goodness

lemma goodBlock_check_unlink (n : Str) : goodBlock [.check n, .unlink n] := by
  intro c
  by_cases hs : safe_filename n = true
  · simp [runChecks, guardedFrom, hs, isMut, opNames]
  · simp [runChecks, guardedFrom, hs]

lemma goodBlock_check_rmtree (n : Str) : goodBlock [.check n, .rmtree n] := by
  intro c
  by_cases hs : safe_filename n = true
  · simp [runChecks, guardedFrom, hs, isMut, opNames]
  · simp [runChecks, guardedFrom, hs]

lemma goodBlock_check_mkdir (n : Str) : goodBlock [.check n, .mkdir n] := by
  intro c
  by_cases hs : safe_filename n = true
  · simp [runChecks, guardedFrom, hs, isMut, opNames]
  · simp [runChecks, guardedFrom, hs]

lemma goodBlock_utimes (l : List Str) : goodBlock (l.map Op.utime) := by
  intro c
  induction l with
  | nil => rfl
  | cons n rest ih =>
    simp only [List.map_cons]
    rw [runChecks_cons_nonCheck _ _ (by intro k hk; cases hk),
      guardedFrom_cons_nonCheck _ _ _ (by intro k hk; cases hk)]
    simp [isMut, ih]

lemma goodBlock_syncFlacOps (I : SyncIn) (s d : Str) : goodBlock (syncFlacOps I s d) := by
  intro c
  rw [syncFlacOps]
  by_cases hs : safe_filename s = true
  · by_cases hd : safe_filename d = true
    · by_cases ht : I.tagsDiffer s d = true
      · by_cases hf : I.fat = true
        · simp [runChecks, guardedFrom, hs, hd, ht, hf, isMut, opNames]
        · simp [runChecks, guardedFrom, hs, hd, ht, hf, isMut, opNames]
      · by_cases hf : I.fat = true
        · simp [runChecks, guardedFrom, hs, hd, ht, hf, isMut, opNames]
        · simp [runChecks, guardedFrom, hs, hd, ht, hf, isMut, opNames]
    · simp [runChecks, guardedFrom, hs, hd]
  · simp [runChecks, guardedFrom, hs]

lemma goodBlock_copyFileOps (I : SyncIn) (s d : Str) : goodBlock (copyFileOps I s d) := by
  intro c
  rw [copyFileOps]
  by_cases hs : safe_filename s = true
  · by_cases hd : safe_filename d = true
    · by_cases hf : I.fat = true
      · simp [runChecks, guardedFrom, hs, hd, hf, isMut, opNames]
      · simp [runChecks, guardedFrom, hs, hd, hf, isMut, opNames]
    · simp [runChecks, guardedFrom, hs, hd]
  · simp [runChecks, guardedFrom, hs]

lemma goodBlock_copyFlacOps (I : SyncIn) (s d : Str) : goodBlock (copyFlacOps I s d) := by
  intro c
  rw [copyFlacOps, syncFlacOps]
  by_cases hs : safe_filename s = true
  · by_cases hd : safe_filename d = true
    · by_cases ht : I.tagsDiffer s d = true
      · by_cases hf : I.fat = true
        · simp [runChecks, guardedFrom, hs, hd, ht, hf, isMut, opNames]
        · simp [runChecks, guardedFrom, hs, hd, ht, hf, isMut, opNames]
      · by_cases hf : I.fat = true
        · simp [runChecks, guardedFrom, hs, hd, ht, hf, isMut, opNames]
        · simp [runChecks, guardedFrom, hs, hd, ht, hf, isMut, opNames]
    · simp [runChecks, guardedFrom, hs, hd]
  · simp [runChecks, guardedFrom, hs]

lemma mainBlocks_good (I : SyncIn) (R : Recon) : ∀ b ∈ mainBlocks I R, goodBlock b := by
  intro b hb
  rw [mainBlocks] at hb
  simp only [List.mem_append, List.mem_map, List.mem_cons, List.mem_singleton] at hb
  rcases hb with ((((((⟨n, -, rfl⟩ | ⟨n, -, rfl⟩) | ⟨n, -, rfl⟩) | (rfl | h)) | ⟨n, -, rfl⟩) |
      ⟨n, -, rfl⟩) | ⟨n, -, rfl⟩)
  · exact goodBlock_check_unlink n
  · exact goodBlock_check_rmtree n
  · exact goodBlock_check_mkdir n
  · by_cases hf : I.fat = true
    · rw [if_pos hf]
      exact goodBlock_utimes _
    · rw [if_neg hf]
      intro c
      rfl
  · simp at h
  · exact goodBlock_copyFileOps I _ _
  · exact goodBlock_copyFlacOps I _ _
  · exact goodBlock_syncFlacOps I _ _

lemma refreshOps_no_checks (I : SyncIn) (R : Recon) :
    ∀ op ∈ refreshOps I R, ∃ n, op = Op.unlink n := by
  intro op hop
  rw [refreshOps] at hop
  rcases List.mem_append.1 hop with hm | hm
  · obtain ⟨n, -, rfl⟩ := List.mem_map.1 hm
    exact ⟨n ++ dotFmt I.fmt, rfl⟩
  · obtain ⟨n, -, rfl⟩ := List.mem_map.1 hm
    exact ⟨n, rfl⟩

lemma runChecks_of_unlinks (a : List Op) (h : ∀ op ∈ a, ∃ n, op = Op.unlink n) (b : List Op) :
    runChecks (a ++ b) = a ++ runChecks b := by
  induction a with
  | nil => rfl
  | cons op rest ih =>
    obtain ⟨n, rfl⟩ := h op (by simp)
    rw [List.cons_append, runChecks_cons_nonCheck _ _ (by intro k hk; cases hk),
      ih (fun o ho => h o (by simp [ho]))]
    rfl



-- ## C1 theorems

/-- C1 (amended): in every run that passes the scan phase, the mutation trace
is exactly the staleness-refresh unlinks — performed without any safe-name
check — followed by the remaining actions, in which every mutation (file
unlink, directory removal, directory creation, copy, transcode, tag rewrite)
is preceded by a passing `safe_filename` check of every name involved. -/
theorem sync_paths_c1_amended (I : SyncIn) (R : Recon) (h : reconcile I = some R) :
    sync_paths_trace I = refreshOps I R ++ runChecks (mainOps I R) ∧
    (∀ op ∈ refreshOps I R, ∃ n, op = Op.unlink n) ∧
    guardedFrom [] (runChecks (mainOps I R)) = true := by
  refine ⟨?_, refreshOps_no_checks I R, guarded_flatten _ (mainBlocks_good I R) []⟩
  rw [sync_paths_trace, h]
  exact runChecks_of_unlinks _ (refreshOps_no_checks I R) _

/-- C1 as stated: every mutation of every run is preceded by a passing
safe-name check. -/
def ClaimC1 : Prop := ∀ I : SyncIn, guardedFrom [] (sync_paths_trace I) = true

/-- C1 (counterexample): a run with one stale flac file starts with the
refresh unlink of `a.ogg` as its very first action, with no check before it,
so the claim as stated is false. -/
theorem sync_paths_c1_counterexample : ¬ ClaimC1 := fun h => absurd (h c1in) (by decide)

/-- The tables built in the C1 run. -/
def c1maps : MapsOut := ⟨[['a']], [(['a'], ['a'])], [['a','.','o','g','g']], [], []⟩

/-- The decision sets of the C1 run. -/
def c1rec : Recon := mkRecon c1in c1maps

/-- C1 (witness): the amended theorem applied to the concrete one-file run. -/
theorem sync_paths_c1_amended_witness :
    sync_paths_trace c1in = refreshOps c1in c1rec ++ runChecks (mainOps c1in c1rec) ∧
    (∀ op ∈ refreshOps c1in c1rec, ∃ n, op = Op.unlink n) ∧
    guardedFrom [] (runChecks (mainOps c1in c1rec)) = true :=
  sync_paths_c1_amended c1in c1rec (by decide)

-- ## C2 theorems

/-- C2 as stated: if two distinct physical source files normalize to the same
logical name under Rewrite or AndroidSafe, the mapping phase must fail. -/
def ClaimC2 : Prop :=
  ∀ (P : Policy) (unidec : Str → Str) (tagsOf : Str → Tags) (fmt : Str)
    (files : List Str) (a b : Str),
    a ∈ files → b ∈ files → a ≠ b → (P = .rewrite ∨ P = .android) →
    modifiedNonFlac P unidec a = modifiedNonFlac P unidec b →
    (modifiedNonFlac P unidec a).isSome = true →
    buildMaps P unidec tagsOf fmt files = none

/-- First colliding physical name for C2. -/
def c2a : Str := ['a','"','b','.','m','p','3']
/-- Second colliding physical name for C2 (both normalize to `a_b.mp3`). -/
def c2b : Str := ['a','*','b','.','m','p','3']

/-- C2 (counterexample): `a\"b.mp3` and `a*b.mp3` both normalize to `a_b.mp3`
under AndroidSafe, yet the mapping phase completes without error — the later
file silently overwrites the earlier in the logical-to-physical map. -/
theorem sync_paths_c2_counterexample : ¬ ClaimC2 := by
  intro h
  have hmap := h .android (fun s => s) (fun _ => []) ['o','g','g'] [c2a, c2b] c2a c2b
    (by decide) (by decide) (by decide) (Or.inr rfl) (by decide) (by decide)
  exact absurd hmap (by decide)

/-- Lookup in the empty map. -/
lemma amapGet_nil (l : Str) : amapGet [] l = none := rfl

/-- Lookup steps through one entry. -/
lemma amapGet_cons (e : Str × Str) (rest : List (Str × Str)) (l : Str) :
    amapGet (e :: rest) l = if e.1 = l then some e.2 else amapGet rest l := by
  by_cases h : e.1 = l
  · rw [amapGet, List.find?_cons_of_pos _ (by simpa using h), if_pos h]
    rfl
  · rw [amapGet, List.find?_cons_of_neg _ (by simpa using h), if_neg h]
    rfl

/-- Dict assignment then lookup. -/
lemma amapGet_amapSet (m : List (Str × Str)) (k v l : Str) :
    amapGet (amapSet m k v) l = if l = k then some v else amapGet m l := by
  induction m with
  | nil =>
    rw [amapSet, amapGet_cons]
    by_cases hlk : l = k
    · subst hlk
      simp
    · rw [if_neg (fun h => hlk h.symm), if_neg hlk]
  | cons e rest ih =>
    rw [amapSet]
    by_cases hek : e.1 = k
    · rw [if_pos hek, amapGet_cons, amapGet_cons]
      by_cases hlk : l = k
      · subst hlk
        simp
      · rw [if_neg (fun h => hlk h.symm), if_neg hlk,
          if_neg (fun h => hlk (h.symm.trans hek))]
    · rw [if_neg hek, amapGet_cons, amapGet_cons, ih]
      by_cases hel : e.1 = l
      · have hlk : ¬ l = k := fun hc => hek (hel.trans hc)
        rw [if_pos hel, if_neg hlk, if_pos hel]
      · rw [if_neg hel, if_neg hel]

/-- The AndroidSafe normalizer succeeds on every nonempty name. -/
lemma android_some (n : Str) (h : n ≠ []) : ∃ t, android_safe_chars_only n = some t :=
  ⟨_, by rw [android_safe_chars_only, if_neg h]⟩

/-- The logical name computed for one source file by the mapping loop: a file
with extension `flac` is normalized through the flac rule on its base name,
any other file through the plain rule. -/
def normOf (P : Policy) (unidec : Str → Str) (tagsOf : Str → Tags) (n : Str) : Option Str :=
  if extLast n == ['f','l','a','c'] then modifiedFlac P unidec tagsOf (dropExtDot n)
  else modifiedNonFlac P unidec n

/-- Fold characterization of the two logical-to-physical maps under any
policy: as long as each individual normalization succeeds, the whole mapping
fold succeeds — no collision is ever detected — and each map binds a logical
name to the last physical name that produced it. -/
lemma buildMaps_lastwins_aux (P : Policy) (unidec : Str → Str) (tagsOf : Str → Tags)
    (fmt : Str) (files : List Str) (acc : MapsOut)
    (hS : ∀ n ∈ files, (normOf P unidec tagsOf n).isSome = true) :
    ∃ M, List.foldlM (buildStep P unidec tagsOf fmt) acc files = some M ∧
      (∀ l, amapGet M.notFlacMap l =
        (match (files.filter (fun n => !(extLast n == ['f','l','a','c']) &&
            (modifiedNonFlac P unidec n == some l))).getLast? with
         | some p => some p
         | none => amapGet acc.notFlacMap l)) ∧
      (∀ l, amapGet M.flacMap l =
        (match ((files.filter (fun n => (extLast n == ['f','l','a','c']) &&
            (modifiedFlac P unidec tagsOf (dropExtDot n) == some l))).map
              dropExtDot).getLast? with
         | some p => some p
         | none => amapGet acc.flacMap l)) := by
  induction files generalizing acc with
  | nil => exact ⟨acc, rfl, fun l => rfl, fun l => rfl⟩
  | cons f rest ih =>
    have hSf := hS f (by simp)
    have hSr : ∀ n ∈ rest, (normOf P unidec tagsOf n).isSome = true :=
      fun n hn => hS n (by simp [hn])
    by_cases hf : (extLast f == ['f','l','a','c']) = true
    · rw [normOf, if_pos hf] at hSf
      obtain ⟨mn, hmn⟩ := Option.isSome_iff_exists.mp hSf
      have hstep : buildStep P unidec tagsOf fmt acc f =
          some ⟨setAdd acc.flacFiles mn, amapSet acc.flacMap mn (dropExtDot f),
                setAdd acc.asFormat (mn ++ dotFmt fmt),
                acc.notFlacFiles, acc.notFlacMap⟩ := by
        rw [buildStep, if_pos hf]
        dsimp only []
        rw [hmn]
        rfl
      rw [List.foldlM_cons, hstep]
      obtain ⟨M, hM, hMnf, hMf⟩ :=
        ih (⟨setAdd acc.flacFiles mn, amapSet acc.flacMap mn (dropExtDot f),
             setAdd acc.asFormat (mn ++ dotFmt fmt),
             acc.notFlacFiles, acc.notFlacMap⟩ : MapsOut) hSr
      refine ⟨M, hM, fun l => ?_, fun l => ?_⟩
      · rw [hMnf l, List.filter_cons,
          if_neg (show ¬((!(extLast f == ['f','l','a','c']) &&
            (modifiedNonFlac P unidec f == some l)) = true) by simp [hf])]
      · rw [hMf l, List.filter_cons]
        by_cases hpf : ((extLast f == ['f','l','a','c']) &&
            (modifiedFlac P unidec tagsOf (dropExtDot f) == some l)) = true
        · rw [if_pos hpf, List.map_cons]
          have hmfl : mn = l := by
            rw [Bool.and_eq_true] at hpf
            have h2 := hpf.2
            rw [hmn] at h2
            simpa using h2
          rcases hrl : ((rest.filter (fun n => (extLast n == ['f','l','a','c']) &&
              (modifiedFlac P unidec tagsOf (dropExtDot n) == some l))).map
                dropExtDot).getLast? with - | x
          · have hre : (rest.filter (fun n => (extLast n == ['f','l','a','c']) &&
                (modifiedFlac P unidec tagsOf (dropExtDot n) == some l))).map
                  dropExtDot = [] :=
              List.getLast?_eq_none_iff.1 hrl
            rw [hre]
            show amapGet (amapSet acc.flacMap mn (dropExtDot f)) l = some (dropExtDot f)
            rw [amapGet_amapSet, if_pos hmfl.symm]
          · rcases hfl : (rest.filter (fun n => (extLast n == ['f','l','a','c']) &&
                (modifiedFlac P unidec tagsOf (dropExtDot n) == some l))).map
                  dropExtDot with - | ⟨y, ys⟩
            · rw [hfl] at hrl
              cases hrl
            · rw [hfl] at hrl
              rw [List.getLast?_cons_cons, hrl]
        · rw [if_neg hpf]
          rcases hrl : ((rest.filter (fun n => (extLast n == ['f','l','a','c']) &&
              (modifiedFlac P unidec tagsOf (dropExtDot n) == some l))).map
                dropExtDot).getLast? with - | x
          · show amapGet (amapSet acc.flacMap mn (dropExtDot f)) l = amapGet acc.flacMap l
            rw [amapGet_amapSet]
            have hlmn : ¬ l = mn := by
              intro he
              apply hpf
              rw [hmn]
              subst he
              simp [hf]
            rw [if_neg hlmn]
          · rfl
    · have hf' : (extLast f == ['f','l','a','c']) = false := by
        rcases hb : (extLast f == ['f','l','a','c']) with - | -
        · rfl
        · exact absurd hb hf
      rw [normOf, if_neg hf] at hSf
      obtain ⟨mn, hmn⟩ := Option.isSome_iff_exists.mp hSf
      have hstep : buildStep P unidec tagsOf fmt acc f =
          some ⟨acc.flacFiles, acc.flacMap, setAdd acc.asFormat mn,
                setAdd acc.notFlacFiles mn, amapSet acc.notFlacMap mn f⟩ := by
        rw [buildStep, if_neg hf]
        rw [hmn]
        rfl
      rw [List.foldlM_cons, hstep]
      obtain ⟨M, hM, hMnf, hMf⟩ :=
        ih (⟨acc.flacFiles, acc.flacMap, setAdd acc.asFormat mn,
             setAdd acc.notFlacFiles mn, amapSet acc.notFlacMap mn f⟩ : MapsOut) hSr
      refine ⟨M, hM, fun l => ?_, fun l => ?_⟩
      · rw [hMnf l, List.filter_cons]
        by_cases hpf : (!(extLast f == ['f','l','a','c']) &&
            (modifiedNonFlac P unidec f == some l)) = true
        · rw [if_pos hpf]
          have hmfl : mn = l := by
            rw [Bool.and_eq_true] at hpf
            have h2 := hpf.2
            rw [hmn] at h2
            simpa using h2
          rcases hrl : (rest.filter (fun n => !(extLast n == ['f','l','a','c']) &&
              (modifiedNonFlac P unidec n == some l))).getLast? with - | x
          · have hre : rest.filter (fun n => !(extLast n == ['f','l','a','c']) &&
                (modifiedNonFlac P unidec n == some l)) = [] :=
              List.getLast?_eq_none_iff.1 hrl
            rw [hre]
            show amapGet (amapSet acc.notFlacMap mn f) l = some f
            rw [amapGet_amapSet, if_pos hmfl.symm]
          · rcases hfl : rest.filter (fun n => !(extLast n == ['f','l','a','c']) &&
                (modifiedNonFlac P unidec n == some l)) with - | ⟨y, ys⟩
            · rw [hfl] at hrl
              cases hrl
            · rw [hfl] at hrl
              rw [List.getLast?_cons_cons, hrl]
        · rw [if_neg hpf]
          rcases hrl : (rest.filter (fun n => !(extLast n == ['f','l','a','c']) &&
              (modifiedNonFlac P unidec n == some l))).getLast? with - | x
          · show amapGet (amapSet acc.notFlacMap mn f) l = amapGet acc.notFlacMap l
            rw [amapGet_amapSet]
            have hlmn : ¬ l = mn := by
              intro he
              apply hpf
              rw [hmn]
              subst he
              simp [hf']
            rw [if_neg hlmn]
          · rfl
      · rw [hMf l, List.filter_cons,
          if_neg (show ¬(((extLast f == ['f','l','a','c']) &&
            (modifiedFlac P unidec tagsOf (dropExtDot f) == some l)) = true) by simp [hf'])]

/-- C2 (amended): under every normalization policy the mapping phase performs
no collision detection — whenever each individual name normalization succeeds
the fold completes, and each of the flac and non-flac logical-to-physical maps
silently binds a logical name to the last physical name processed that
produced it, overwriting any earlier entry. -/
theorem sync_paths_c2_amended (P : Policy) (unidec : Str → Str) (tagsOf : Str → Tags)
    (fmt : Str) (files : List Str)
    (hS : ∀ n ∈ files, (normOf P unidec tagsOf n).isSome = true) :
    ∃ M, buildMaps P unidec tagsOf fmt files = some M ∧
      (∀ l, amapGet M.notFlacMap l =
        (files.filter (fun n => !(extLast n == ['f','l','a','c']) &&
          (modifiedNonFlac P unidec n == some l))).getLast?) ∧
      (∀ l, amapGet M.flacMap l =
        ((files.filter (fun n => (extLast n == ['f','l','a','c']) &&
          (modifiedFlac P unidec tagsOf (dropExtDot n) == some l))).map
            dropExtDot).getLast?) := by
  obtain ⟨M, hM, hMnf, hMf⟩ := buildMaps_lastwins_aux P unidec tagsOf fmt files emptyMaps hS
  refine ⟨M, hM, fun l => ?_, fun l => ?_⟩
  · rw [hMnf l]
    rcases (files.filter (fun n => !(extLast n == ['f','l','a','c']) &&
        (modifiedNonFlac P unidec n == some l))).getLast? with - | x
    · rfl
    · rfl
  · rw [hMf l]
    rcases ((files.filter (fun n => (extLast n == ['f','l','a','c']) &&
        (modifiedFlac P unidec tagsOf (dropExtDot n) == some l))).map
          dropExtDot).getLast? with - | x
    · rfl
    · rfl

/-- First colliding flac physical name for the C2 witness. -/
def c2fa : Str := ['x','"','.','f','l','a','c']

/-- Second colliding flac physical name for the C2 witness (both bases
normalize to `x_` under AndroidSafe). -/
def c2fb : Str := ['x','*','.','f','l','a','c']

/-- C2 (witness): the amended theorem applied under AndroidSafe to a run with
two colliding non-flac names and two colliding flac names. -/
theorem sync_paths_c2_amended_witness :
    ∃ M, buildMaps .android (fun s => s) (fun _ => []) ['o','g','g']
        [c2a, c2b, c2fa, c2fb] = some M ∧
      (∀ l, amapGet M.notFlacMap l =
        ([c2a, c2b, c2fa, c2fb].filter (fun n => !(extLast n == ['f','l','a','c']) &&
          (modifiedNonFlac .android (fun s => s) n == some l))).getLast?) ∧
      (∀ l, amapGet M.flacMap l =
        (([c2a, c2b, c2fa, c2fb].filter (fun n => (extLast n == ['f','l','a','c']) &&
          (modifiedFlac .android (fun s => s) (fun _ => []) (dropExtDot n) == some l))).map
            dropExtDot).getLast?) :=
  sync_paths_c2_amended .android (fun s => s) (fun _ => []) ['o','g','g']
    [c2a, c2b, c2fa, c2fb] (by decide)



-- ## C3 lemma layer

lemma mem_setAdd_self (l : List Str) (x : Str) : x ∈ setAdd l x := by
  rw [setAdd]
  by_cases h : l.contains x = true
  · rw [if_pos h]
    simpa using h
  · rw [if_neg h]
    simp

lemma mem_setAdd_of_mem (l : List Str) (x y : Str) (h : y ∈ l) : y ∈ setAdd l x := by
  rw [setAdd]
  by_cases hc : l.contains x = true
  · rw [if_pos hc]
    exact h
  · rw [if_neg hc]
    simp [h]

lemma mem_setAdd_iff (l : List Str) (x y : Str) : y ∈ setAdd l x ↔ y ∈ l ∨ y = x := by
  rw [setAdd]
  by_cases hc : l.contains x = true
  · rw [if_pos hc]
    constructor
    · exact Or.inl
    · rintro (h | rfl)
      · exact h
      · simpa using hc
  · rw [if_neg hc]
    simp

/-- Invariant of the mapping phase: every logical flac name with the target
extension appended, and every non-flac logical name, is in `src_as_format_files`. -/
def InvA (fmt : Str) (acc : MapsOut) : Prop :=
  (∀ x ∈ acc.flacFiles, x ++ dotFmt fmt ∈ acc.asFormat) ∧
  (∀ x ∈ acc.notFlacFiles, x ∈ acc.asFormat)

lemma buildStep_inv (P : Policy) (u : Str → Str) (t : Str → Tags) (fmt : Str)
    (acc M : MapsOut) (name : Str)
    (h : buildStep P u t fmt acc name = some M) (hI : InvA fmt acc) : InvA fmt M := by
  rw [buildStep] at h
  by_cases hext : (extLast name == ['f','l','a','c']) = true
  · rw [if_pos hext] at h
    dsimp only [] at h
    cases hmod : modifiedFlac P u t (dropExtDot name) with
    | none => rw [hmod] at h; cases h
    | some mn =>
      rw [hmod] at h
      have hM : M = ⟨setAdd acc.flacFiles mn, amapSet acc.flacMap mn (dropExtDot name),
          setAdd acc.asFormat (mn ++ dotFmt fmt), acc.notFlacFiles, acc.notFlacMap⟩ :=
        ((Option.some.injEq _ _).mp h).symm
      subst hM
      constructor
      · intro x hx
        rcases (mem_setAdd_iff _ _ _).1 hx with hx2 | rfl
        · exact mem_setAdd_of_mem _ _ _ (hI.1 x hx2)
        · exact mem_setAdd_self _ _
      · intro x hx
        exact mem_setAdd_of_mem _ _ _ (hI.2 x hx)
  · rw [if_neg hext] at h
    cases hmod : modifiedNonFlac P u name with
    | none => rw [hmod] at h; cases h
    | some mn =>
      rw [hmod] at h
      have hM : M = ⟨acc.flacFiles, acc.flacMap, setAdd acc.asFormat mn,
          setAdd acc.notFlacFiles mn, amapSet acc.notFlacMap mn name⟩ :=
        ((Option.some.injEq _ _).mp h).symm
      subst hM
      constructor
      · intro x hx
        exact mem_setAdd_of_mem _ _ _ (hI.1 x hx)
      · intro x hx
        rcases (mem_setAdd_iff _ _ _).1 hx with hx2 | rfl
        · exact mem_setAdd_of_mem _ _ _ (hI.2 x hx2)
        · exact mem_setAdd_self _ _

lemma buildMaps_aux_inv (P : Policy) (u : Str → Str) (t : Str → Tags) (fmt : Str)
    (files : List Str) (acc M : MapsOut)
    (h : List.foldlM (buildStep P u t fmt) acc files = some M) (hI : InvA fmt acc) :
    InvA fmt M := by
  induction files generalizing acc with
  | nil =>
    rw [List.foldlM_nil] at h
    have : acc = M := (Option.some.injEq _ _).mp h
    exact this ▸ hI
  | cons f rest ih =>
    rw [List.foldlM_cons] at h
    cases hstep : buildStep P u t fmt acc f with
    | none => rw [hstep] at h; cases h
    | some acc2 =>
      rw [hstep] at h
      exact ih acc2 h (buildStep_inv P u t fmt acc acc2 f hstep hI)

lemma buildMaps_inv (P : Policy) (u : Str → Str) (t : Str → Tags) (fmt : Str)
    (files : List Str) (M : MapsOut) (h : buildMaps P u t fmt files = some M) :
    InvA fmt M :=
  buildMaps_aux_inv P u t fmt files emptyMaps M h ⟨fun x hx => absurd hx (by simp [emptyMaps]),
    fun x hx => absurd hx (by simp [emptyMaps])⟩

lemma mem_refreshedFlac_iff (I : SyncIn) (M : MapsOut) (n : Str) :
    n ∈ refreshedFlacOf I M ↔ n ∈ M.flacFiles ∧ n ∈ dstFormat0Of I ∧
      I.srcMtime ((amapGet M.flacMap n).getD [] ++ fExt) ≥ I.dstMtime (n ++ dotFmt I.fmt) := by
  rw [refreshedFlacOf]
  simp only [List.mem_filter, flacStale, decide_eq_true_eq, List.contains_iff_exists_mem_beq,
    beq_iff_eq]
  constructor
  · rintro ⟨⟨h1, x, hx, rfl⟩, h3⟩
    exact ⟨h1, hx, h3⟩
  · rintro ⟨h1, h2, h3⟩
    exact ⟨⟨h1, n, h2, rfl⟩, h3⟩

lemma mem_dstFiles1_iff (I : SyncIn) (M : MapsOut) (m : Str) :
    m ∈ dstFiles1Of I M ↔ m ∈ dstFiles0Of I ∧
      ∀ x ∈ refreshedFlacOf I M, ¬ (x ++ dotFmt I.fmt = m) := by
  rw [dstFiles1Of]
  simp [List.mem_filter]

lemma mem_refreshedOther_iff (I : SyncIn) (M : MapsOut) (m : Str) :
    m ∈ refreshedOtherOf I M ↔ m ∈ M.notFlacFiles ∧ m ∈ dstFiles1Of I M ∧
      I.srcMtime ((amapGet M.notFlacMap m).getD []) ≥ I.dstMtime m := by
  rw [refreshedOtherOf]
  simp only [List.mem_filter, otherStale, decide_eq_true_eq, List.contains_iff_exists_mem_beq,
    beq_iff_eq]
  constructor
  · rintro ⟨⟨h1, x, hx, rfl⟩, h3⟩
    exact ⟨h1, hx, h3⟩
  · rintro ⟨h1, h2, h3⟩
    exact ⟨⟨h1, m, h2, rfl⟩, h3⟩

lemma runChecks_mem (l : List Op) (op : Op) (h : op ∈ runChecks l) : op ∈ l := by
  induction l with
  | nil => exact absurd h (by simp [runChecks])
  | cons o rest ih =>
    cases o with
    | check n =>
      by_cases hs : safe_filename n = true
      · rw [runChecks, if_pos hs] at h
        rcases List.mem_cons.1 h with rfl | hm
        · simp
        · exact List.mem_cons.2 (Or.inr (ih hm))
      · rw [runChecks, if_neg hs] at h
        rcases List.mem_cons.1 h with rfl | hm
        · simp
        · exact absurd hm (by simp)
    | unlink n =>
      rw [runChecks] at h
      rcases List.mem_cons.1 h with rfl | hm
      · simp
      · exact List.mem_cons.2 (Or.inr (ih hm))
    | rmtree n =>
      rw [runChecks] at h
      rcases List.mem_cons.1 h with rfl | hm
      · simp
      · exact List.mem_cons.2 (Or.inr (ih hm))
    | mkdir n =>
      rw [runChecks] at h
      rcases List.mem_cons.1 h with rfl | hm
      · simp
      · exact List.mem_cons.2 (Or.inr (ih hm))
    | utime n =>
      rw [runChecks] at h
      rcases List.mem_cons.1 h with rfl | hm
      · simp
      · exact List.mem_cons.2 (Or.inr (ih hm))
    | copy s d =>
      rw [runChecks] at h
      rcases List.mem_cons.1 h with rfl | hm
      · simp
      · exact List.mem_cons.2 (Or.inr (ih hm))
    | transcode s d =>
      rw [runChecks] at h
      rcases List.mem_cons.1 h with rfl | hm
      · simp
      · exact List.mem_cons.2 (Or.inr (ih hm))
    | retag s d =>
      rw [runChecks] at h
      rcases List.mem_cons.1 h with rfl | hm
      · simp
      · exact List.mem_cons.2 (Or.inr (ih hm))

lemma unlink_mem_mainOps (I : SyncIn) (R : Recon) (y : Str)
    (h : Op.unlink y ∈ mainOps I R) : y ∈ R.delFiles := by
  rw [mainOps, List.mem_flatten] at h
  obtain ⟨blk, hblk, hop⟩ := h
  rw [mainBlocks] at hblk
  simp only [List.mem_append, List.mem_map, List.mem_cons, List.mem_singleton] at hblk
  rcases hblk with ((((((⟨n, hn, rfl⟩ | ⟨n, hn, rfl⟩) | ⟨n, hn, rfl⟩) | (rfl | hfalse)) |
      ⟨n, hn, rfl⟩) | ⟨n, hn, rfl⟩) | ⟨n, hn, rfl⟩)
  · rcases List.mem_cons.1 hop with he | hm
    · cases he
    · rcases List.mem_cons.1 hm with he | hm2
      · cases he
        exact hn
      · exact absurd hm2 (by simp)
  · rcases List.mem_cons.1 hop with he | hm
    · cases he
    · rcases List.mem_cons.1 hm with he | hm2
      · cases he
      · exact absurd hm2 (by simp)
  · rcases List.mem_cons.1 hop with he | hm
    · cases he
    · rcases List.mem_cons.1 hm with he | hm2
      · cases he
      · exact absurd hm2 (by simp)
  · by_cases hf : I.fat = true
    · rw [if_pos hf] at hop
      obtain ⟨x, -, hx⟩ := List.mem_map.1 hop
      cases hx
    · rw [if_neg hf] at hop
      exact absurd hop (by simp)
  · simp at hfalse
  · rw [copyFileOps] at hop
    rcases List.mem_append.1 hop with hm | hm
    · rcases List.mem_cons.1 hm with he | hm2
      · cases he
      · rcases List.mem_cons.1 hm2 with he | hm3
        · cases he
        · rcases List.mem_cons.1 hm3 with he | hm4
          · cases he
          · exact absurd hm4 (by simp)
    · by_cases hf : I.fat = true
      · rw [if_pos hf] at hm
        rcases List.mem_cons.1 hm with he | hm2
        · cases he
        · exact absurd hm2 (by simp)
      · rw [if_neg hf] at hm
        exact absurd hm (by simp)
  · rw [copyFlacOps, syncFlacOps] at hop
    by_cases ht : I.tagsDiffer ((amapGet R.maps.flacMap n).getD []) n = true
    · by_cases hf : I.fat = true
      · simp only [ht, hf, if_true] at hop
        simp at hop
      · simp only [ht, hf, if_true, if_false] at hop
        simp at hop
    · by_cases hf : I.fat = true
      · simp only [ht, hf, if_true, if_false] at hop
        simp at hop
      · simp only [ht, hf, if_false] at hop
        simp at hop
  · rw [syncFlacOps] at hop
    by_cases ht : I.tagsDiffer ((amapGet R.maps.flacMap n).getD []) n = true
    · by_cases hf : I.fat = true
      · simp only [ht, hf, if_true] at hop
        simp at hop
      · simp only [ht, hf, if_true, if_false] at hop
        simp at hop
    · by_cases hf : I.fat = true
      · simp only [ht, hf, if_true, if_false] at hop
        simp at hop
      · simp only [ht, hf, if_false] at hop
        simp at hop



/-- C3: for a file present in both inventories (flac names matched against
their target-format counterpart, others by logical name, with no aliasing
between the two groups), source mtime at or above the destination's means the
destination file is unlinked and the name is rescheduled as a fresh
transcode/copy job; a strictly smaller source mtime means the file is never
refreshed: it stays, is never unlinked anywhere in the run, and goes to the
tag-sync list (flac) or to no copy at all (non-flac). -/
theorem sync_paths_c3 (I : SyncIn) (R : Recon) (n m : Str)
    (h : reconcile I = some R)
    (hn1 : n ∈ R.maps.flacFiles) (hn2 : n ∈ R.dstFormat0)
    (hna : (n ++ dotFmt I.fmt) ∉ R.maps.notFlacFiles)
    (hm1 : m ∈ R.maps.notFlacFiles) (hm2 : m ∈ R.dstFiles0)
    (hmb : ∀ x ∈ R.maps.flacFiles, ¬ (x ++ dotFmt I.fmt = m)) :
    ((I.srcMtime ((amapGet R.maps.flacMap n).getD [] ++ fExt) ≥ I.dstMtime (n ++ dotFmt I.fmt) →
        n ∈ R.refreshedFlac ∧ Op.unlink (n ++ dotFmt I.fmt) ∈ sync_paths_trace I ∧
          n ∈ R.transJobs) ∧
     (I.srcMtime ((amapGet R.maps.flacMap n).getD [] ++ fExt) < I.dstMtime (n ++ dotFmt I.fmt) →
        n ∉ R.refreshedFlac ∧ n ∈ R.syncJobs ∧
          Op.unlink (n ++ dotFmt I.fmt) ∉ sync_paths_trace I)) ∧
    ((I.srcMtime ((amapGet R.maps.notFlacMap m).getD []) ≥ I.dstMtime m →
        m ∈ R.refreshedOther ∧ Op.unlink m ∈ sync_paths_trace I ∧ m ∈ R.copyJobs) ∧
     (I.srcMtime ((amapGet R.maps.notFlacMap m).getD []) < I.dstMtime m →
        m ∉ R.refreshedOther ∧ m ∉ R.copyJobs ∧ Op.unlink m ∉ sync_paths_trace I)) := by
  rw [reconcile] at h
  cases hM : buildMaps I.policy I.unidec I.tagsOf I.fmt I.srcFiles with
  | none =>
    rw [hM] at h
    cases h
  | some M =>
    rw [hM] at h
    have hR : mkRecon I M = R := (Option.some.injEq _ _).mp h
    subst hR
    have hinv : InvA I.fmt M := buildMaps_inv _ _ _ _ _ _ hM
    have htr : sync_paths_trace I =
        refreshOps I (mkRecon I M) ++ runChecks (mainOps I (mkRecon I M)) := by
      rw [sync_paths_trace, reconcile, hM]
      exact runChecks_of_unlinks _ (refreshOps_no_checks I _) _
    refine ⟨⟨?_, ?_⟩, ?_, ?_⟩
    · -- flac, stale
      intro hge
      have ha1 : n ∈ refreshedFlacOf I M := (mem_refreshedFlac_iff I M n).2 ⟨hn1, hn2, hge⟩
      refine ⟨ha1, ?_, ?_⟩
      · rw [htr]
        refine List.mem_append.2 (Or.inl ?_)
        show Op.unlink (n ++ dotFmt I.fmt) ∈ refreshOps I (mkRecon I M)
        rw [refreshOps]
        exact List.mem_append.2 (Or.inl (List.mem_map.2 ⟨n, ha1, rfl⟩))
      · show n ∈ M.flacFiles.filter (fun x => !((dstFormat1Of I M).contains x))
        apply List.mem_filter.2
        refine ⟨hn1, ?_⟩
        have hnd : n ∉ dstFormat1Of I M := by
          intro hmem
          rw [dstFormat1Of] at hmem
          have h2 := (List.mem_filter.1 hmem).2
          simp only [Bool.not_eq_eq_eq_not, Bool.not_true, List.contains_eq_any_beq,
            List.any_eq_false, beq_iff_eq] at h2
          exact h2 n ha1 rfl
        simpa using hnd
    · -- flac, fresh
      intro hlt
      have hb1 : n ∉ refreshedFlacOf I M := by
        intro hmem
        exact absurd ((mem_refreshedFlac_iff I M n).1 hmem).2.2 (not_le.2 hlt)
      refine ⟨hb1, ?_, ?_⟩
      · show n ∈ M.flacFiles.filter (fun x => (dstFormat1Of I M).contains x)
        apply List.mem_filter.2
        refine ⟨hn1, ?_⟩
        have hnd : n ∈ dstFormat1Of I M := by
          rw [dstFormat1Of]
          exact List.mem_filter.2 ⟨hn2, by simpa using hb1⟩
        simpa using hnd
      · intro hmem
        rw [htr] at hmem
        rcases List.mem_append.1 hmem with hp | hp
        · rw [show refreshOps I (mkRecon I M) =
              (refreshedFlacOf I M).map (fun x => Op.unlink (x ++ dotFmt I.fmt)) ++
              (refreshedOtherOf I M).map Op.unlink from rfl] at hp
          rcases List.mem_append.1 hp with hpa | hpb
          · obtain ⟨x, hx, hxe⟩ := List.mem_map.1 hpa
            injection hxe with hz
            have hxn : x = n := List.append_cancel_right hz
            exact hb1 (hxn ▸ hx)
          · obtain ⟨x, hx, hxe⟩ := List.mem_map.1 hpb
            injection hxe with hz
            have : x ∈ M.notFlacFiles := ((mem_refreshedOther_iff I M x).1 hx).1
            exact hna (hz ▸ this)
        · have hmain := unlink_mem_mainOps I _ _ (runChecks_mem _ _ hp)
          have h1 := (List.mem_filter.1 (show (n ++ dotFmt I.fmt) ∈
            (dstFiles2Of I M).filter (fun x => !(M.asFormat.contains x)) from hmain)).2
          have h2 := hinv.1 n hn1
          simp only [Bool.not_eq_eq_eq_not, Bool.not_true, List.contains_eq_any_beq,
            List.any_eq_false, beq_iff_eq] at h1
          exact h1 _ h2 rfl
    · -- non-flac, stale
      intro hge
      have hm1d : m ∈ dstFiles1Of I M := (mem_dstFiles1_iff I M m).2
        ⟨hm2, fun x hx => hmb x ((mem_refreshedFlac_iff I M x).1 hx).1⟩
      have hmo : m ∈ refreshedOtherOf I M := (mem_refreshedOther_iff I M m).2 ⟨hm1, hm1d, hge⟩
      refine ⟨hmo, ?_, ?_⟩
      · rw [htr]
        refine List.mem_append.2 (Or.inl ?_)
        show Op.unlink m ∈ refreshOps I (mkRecon I M)
        rw [refreshOps]
        exact List.mem_append.2 (Or.inr (List.mem_map.2 ⟨m, hmo, rfl⟩))
      · show m ∈ M.notFlacFiles.filter (fun x => !((dstFiles2Of I M).contains x))
        apply List.mem_filter.2
        refine ⟨hm1, ?_⟩
        have hnd : m ∉ dstFiles2Of I M := by
          intro hmem
          rw [dstFiles2Of] at hmem
          have h2 := (List.mem_filter.1 hmem).2
          simp only [Bool.not_eq_eq_eq_not, Bool.not_true, List.contains_eq_any_beq,
            List.any_eq_false, beq_iff_eq] at h2
          exact h2 m hmo rfl
        simpa using hnd
    · -- non-flac, fresh
      intro hlt
      have hbo : m ∉ refreshedOtherOf I M := by
        intro hmem
        exact absurd ((mem_refreshedOther_iff I M m).1 hmem).2.2 (not_le.2 hlt)
      refine ⟨hbo, ?_, ?_⟩
      · intro hmem
        have h2 := (List.mem_filter.1 (show m ∈
          M.notFlacFiles.filter (fun x => !((dstFiles2Of I M).contains x)) from hmem)).2
        have hm2' : m ∈ dstFiles2Of I M := by
          rw [dstFiles2Of]
          refine List.mem_filter.2 ⟨(mem_dstFiles1_iff I M m).2
            ⟨hm2, fun x hx => hmb x ((mem_refreshedFlac_iff I M x).1 hx).1⟩, ?_⟩
          simpa using hbo
        simp only [Bool.not_eq_eq_eq_not, Bool.not_true, List.contains_eq_any_beq,
          List.any_eq_false, beq_iff_eq] at h2
        exact h2 m hm2' rfl
      · intro hmem
        rw [htr] at hmem
        rcases List.mem_append.1 hmem with hp | hp
        · rw [show refreshOps I (mkRecon I M) =
              (refreshedFlacOf I M).map (fun x => Op.unlink (x ++ dotFmt I.fmt)) ++
              (refreshedOtherOf I M).map Op.unlink from rfl] at hp
          rcases List.mem_append.1 hp with hpa | hpb
          · obtain ⟨x, hx, hxe⟩ := List.mem_map.1 hpa
            injection hxe with hz
            exact hmb x ((mem_refreshedFlac_iff I M x).1 hx).1 hz
          · obtain ⟨x, hx, hxe⟩ := List.mem_map.1 hpb
            injection hxe with hz
            exact hbo (hz ▸ hx)
        · have hmain := unlink_mem_mainOps I _ _ (runChecks_mem _ _ hp)
          have h1 := (List.mem_filter.1 (show m ∈
            (dstFiles2Of I M).filter (fun x => !(M.asFormat.contains x)) from hmain)).2
          have h2 := hinv.2 m hm1
          simp only [Bool.not_eq_eq_eq_not, Bool.not_true, List.contains_eq_any_beq,
            List.any_eq_false, beq_iff_eq] at h1
          exact h1 _ h2 rfl



/-- A two-file run: a stale flac `a.flac` and a fresh `b.mp3`. -/
def c3in : SyncIn :=
  { policy := .ident
    unidec := fun s => s
    tagsOf := fun _ => []
    fmt := ['o','g','g']
    srcFiles := [['a','.','f','l','a','c'], ['b','.','m','p','3']]
    srcDirs := []
    dstFiles := [['a','.','o','g','g'], ['b','.','m','p','3']]
    dstDirs := []
    fat := false
    srcMtime := fun p => if p = ['a','.','f','l','a','c'] then 5 else 1
    dstMtime := fun p => if p = ['a','.','o','g','g'] then 3 else 9
    tagsDiffer := fun _ _ => false }

/-- The tables built in the C3 run. -/
def c3maps : MapsOut :=
  ⟨[['a']], [(['a'], ['a'])], [['a','.','o','g','g'], ['b','.','m','p','3']],
   [['b','.','m','p','3']], [(['b','.','m','p','3'], ['b','.','m','p','3'])]⟩

/-- The decision sets of the C3 run. -/
def c3rec : Recon := mkRecon c3in c3maps

/-- C3 (witness): in the concrete run, the stale flac is refreshed and
re-transcoded while the fresh mp3 is left alone. -/
theorem sync_paths_c3_witness :
    (['a'] ∈ c3rec.refreshedFlac ∧
      Op.unlink ['a','.','o','g','g'] ∈ sync_paths_trace c3in ∧ ['a'] ∈ c3rec.transJobs) ∧
    (['b','.','m','p','3'] ∉ c3rec.refreshedOther ∧ ['b','.','m','p','3'] ∉ c3rec.copyJobs ∧
      Op.unlink ['b','.','m','p','3'] ∉ sync_paths_trace c3in) := by
  have h := sync_paths_c3 c3in c3rec ['a'] ['b','.','m','p','3'] (by decide) (by decide)
    (by decide) (by decide) (by decide) (by decide) (by decide)
  exact ⟨h.1.1 (by decide), h.2.2 (by decide)⟩


end MusicTranscode
